import Mathlib

/-!
# The value-to-row-position index tree of `src/src/Index.cpp`

A shallow embedding of `Index.cpp`.  A node of the index is a pair of parallel
arrays: sorted keys in slot 0 and refs in slot 1.  In a leaf the refs are row
positions of the indexed column, in an internal node they are handles of child
nodes.  A handle is embedded as the subtree it designates, so the embedding is a
tree of values; every mutating member function returns the new state of the
node it was called on.

Machine integers: values and stored refs are `int64_t` (embedded as `Int`), row
positions passed as arguments are `size_t` (embedded as `Nat`), and every
conversion between the two that the code performs is written out.

`assert` is embedded as a fault: a function whose assertion does not hold, or
which reads the backing array past its size, returns `Except.error`.
-/

namespace Index

/-! ## Constants and integer conversions -/

/-- Line 4: `#define MAX_LIST_SIZE 1000`. -/
def MAX_LIST_SIZE : Nat := 1000

/-- The not-found sentinel `(size_t)-1`. -/
def npos : Nat := 2 ^ 64 - 1

/-- Conversion `int64_t -> size_t`. -/
def toSizeT (i : Int) : Nat := (i % 2 ^ 64).toNat

/-- Conversion `size_t -> int64_t`. -/
def toInt64 (n : Nat) : Int := ((n : Int) + 2 ^ 63) % 2 ^ 64 - 2 ^ 63

/-- The cast `(int)ndx` of line 97, `size_t -> int` with a 32 bit `int`. -/
def toInt32 (n : Nat) : Int := ((n : Int) + 2 ^ 31) % 2 ^ 32 - 2 ^ 31

/-- Subtraction of two `size_t`. -/
def subSizeT (a b : Nat) : Nat := (a + 2 ^ 64 - b % 2 ^ 64) % 2 ^ 64

/-! ## Faults -/

/-- Ways in which a member function stops instead of returning. -/
inductive Fault where
  /-- the `assert` at the given line of `Index.cpp` does not hold -/
  | assertion (line : Nat)
  /-- the backing array is read or written at a position past its size -/
  | outOfRange
  /-- a ref of one kind is used as the other kind: the row position stored in a
  leaf is followed as a node handle, or a node handle is taken as a row position -/
  | refKind
  deriving DecidableEq, Repr

/-! ## Data model -/

/-- A node of the index: `m_array` holds two sub-arrays, the keys (slot 0) and
the refs (slot 1); the `IsNode` flag tells internal nodes from leaves. -/
inductive Node where
  | leaf (keys : List Int) (refs : List Int)
  | node (keys : List Int) (refs : List Node)
  deriving Repr

/-- What `DoInsert` reports to its caller (`Column::NodeChange`).  A handle is
embedded as the state of the node it designates; `ref1` of `split` is the handle
of the node `DoInsert` was called on. -/
inductive NodeChange where
  | error
  | none
  | insertBefore (ref1 : Node)
  | insertAfter (ref1 : Node)
  | split (ref1 ref2 : Node)
  deriving Repr

/-! ## The backing array primitive -/

/-- Modelled from the spec: `Array::FindPos2` is absent from the sources; by the
spec it returns "the first position whose stored value is `>= value` or a
not-found sentinel when none exists".  The sentinel is `Option.none`. -/
def FindPos2 : List Int → Int → Option Nat
  | [], _ => none
  | x :: xs, value => if value ≤ x then some 0 else (FindPos2 xs value).map (· + 1)

/-- Modelled from the spec: `Array::Get` ("get(i)"), a fault past the size. -/
def Get {α : Type} (xs : List α) (i : Nat) : Except Fault α :=
  match xs[i]? with
  | some x => .ok x
  | Option.none => .error .outOfRange

/-- Modelled from the spec: `Array::Insert` ("insert(i,v)"). -/
def Insert {α : Type} (xs : List α) (i : Nat) (v : α) : List α :=
  xs.take i ++ v :: xs.drop i

/-- Modelled from the spec: `Array::Add` ("append(v)"). -/
def Add {α : Type} (xs : List α) (v : α) : List α := xs ++ [v]

/-- Modelled from the spec: `Array::Increment(value, start)` adds `value` to
every element at a position `>= start`. -/
def Increment (xs : List Int) (value : Int) (start : Nat) : List Int :=
  xs.take start ++ (xs.drop start).map (· + value)

/-- Modelled from the spec: `Array::IncrementIf(limit, value)` adds `value` to
every element that is `>= limit`. -/
def IncrementIf (xs : List Int) (limit value : Int) : List Int :=
  xs.map fun x => if limit ≤ x then x + value else x

/-! ## Observers -/

/-- `m_array.IsNode()`. -/
def IsNode : Node → Bool
  | .leaf _ _ => false
  | .node _ _ => true

/-- The keys array, `m_array.GetSubArray(0)`. -/
def keysOf : Node → List Int
  | .leaf keys _ => keys
  | .node keys _ => keys

/-- Lines 23-26: `IsEmpty`. -/
def IsEmpty (n : Node) : Bool := (keysOf n).isEmpty

/-- Lines 192-195: `MaxValue`, the last key, or 0 for a node without keys. -/
def MaxValue (n : Node) : Int :=
  match (keysOf n).getLast? with
  | some v => v
  | Option.none => 0

/-- Modelled from the spec: `Column::Size` is absent from the sources; by the
spec a leaf "holding `MAX_LIST_SIZE` entries cannot grow further", so `Size()`
of a leaf is the number of entries it holds. -/
def Size (n : Node) : Nat := (keysOf n).length

/-- Lines 6-12: the default constructor, a leaf with empty keys and refs. -/
def empty : Node := .leaf [] []

/-- The constructor call `Index newNode(COLUMN_NODE)`: an internal node with
no children. -/
def emptyNode : Node := .node [] []

/-! ## Lookup -/

mutual
/-- Lines 282-296, the loop of `Find`.  `rootIsNode` is `m_array.IsNode()`,
the flag of the node `Find` was called on, which line 290 tests in every
iteration; the argument node is `node`, the one currently visited. -/
def FindLoop (rootIsNode : Bool) (value : Int) : Node → Except Fault Nat
  | .leaf values refs =>
    match FindPos2 values value with
    | Option.none => .ok npos
    | some pos =>
      if !rootIsNode then
        match Get values pos, Get refs pos with
        | .ok k, .ok r => if k = value then .ok (toSizeT r) else .ok npos
        | _, _ => .error .outOfRange
      else
        -- line 295: the row position `refs.Get(pos)` becomes the next node handle
        .error .refKind
  | .node values refs =>
    match FindPos2 values value with
    | Option.none => .ok npos
    | some pos =>
      if !rootIsNode then
        -- line 291 on an internal node would return a node handle as a row
        .error .refKind
      else FindAt rootIsNode value refs pos
/-- Line 295 followed by line 283: continue with the child `refs.Get(pos)`. -/
def FindAt (rootIsNode : Bool) (value : Int) : List Node → Nat → Except Fault Nat
  | [], _ => .error .outOfRange
  | c :: _, 0 => FindLoop rootIsNode value c
  | _ :: cs, pos + 1 => FindAt rootIsNode value cs pos
end

/-- Lines 280-297: `Find`. -/
def Find (root : Node) (value : Int) : Except Fault Nat :=
  FindLoop (IsNode root) value root

/-! ## Insertion -/

/-- Lines 147-166: `LeafInsert`.  The row position `ref` is stored as an
`int64_t`.  The result is always `true`. -/
def LeafInsert (self : Node) (ref : Nat) (value : Int) : Except Fault (Bool × Node) :=
  match self with
  | .node _ _ => .error (.assertion 148)
  | .leaf values refs =>
    match FindPos2 values value with
    | Option.none => .ok (true, .leaf (Add values value) (Add refs (toInt64 ref)))
    | some ins_pos =>
      .ok (true, .leaf (Insert values ins_pos value) (Insert refs ins_pos (toInt64 ref)))

/-- Lines 168-190: `NodeAdd`, link the child `ref` into an internal node at the
first position whose key is not below the child's largest key.  (`assert(ref)`
holds of every handle of the embedding.) -/
def NodeAdd (self : Node) (ref : Node) : Except Fault (Bool × Node) :=
  match self with
  | .leaf _ _ => .error (.assertion 169)
  | .node offsets refs =>
    if IsEmpty ref then .error (.assertion 172)
    else
      let maxval := MaxValue ref
      match FindPos2 offsets maxval with
      | Option.none => .ok (true, .node (Add offsets maxval) (Add refs ref))
      | some ins_pos => .ok (true, .node (Insert offsets ins_pos maxval) (Insert refs ins_pos ref))

/-- Modelled from the spec: `Column::NodeInsert` is absent from the sources.  By
the spec the new sibling "must be linked immediately before" or "immediately
after" the child that reported the change, and the key of a slot of an internal
node "equals the maximum key present anywhere in the subtree"; so the child
`ref` is linked at slot `ndx` under its largest key. -/
def NodeInsert (self : Node) (ndx : Nat) (ref : Node) : Except Fault (Bool × Node) :=
  match self with
  | .leaf _ _ => .error .refKind
  | .node offsets refs =>
    .ok (true, .node (Insert offsets ndx (MaxValue ref)) (Insert refs ndx ref))

/-- Modelled from the spec: `Column::NodeInsertSplit` is absent from the
sources.  By the spec, after a split "parent must link both": the slot `ndx` of
the split child gets the child's new largest key, and the sibling `newRef` is
linked in the slot after it under its own largest key. -/
def NodeInsertSplit (self : Node) (ndx : Nat) (newRef : Node) : Except Fault (Bool × Node) :=
  match self with
  | .leaf _ _ => .error .refKind
  | .node offsets refs =>
    match Get refs ndx with
    | .error e => .error e
    | .ok child =>
      .ok (true, .node (Insert (offsets.set ndx (MaxValue child)) (ndx + 1) (MaxValue newRef))
                       (Insert refs (ndx + 1) newRef))

/-- The converting constructor `NodeChange(bool success)` used by
`return LeafInsert(...)`, `return NodeInsert(...)`: modelled from the spec, where
success is the signal "none: absorbed without structural change" and failure
is the "explicit failure variant". -/
def NodeChange.ofBool (success : Bool) : NodeChange :=
  if success then NodeChange.none else NodeChange.error

/-- Modelled from the spec: `Array::Resize` ("truncate(toLength)") as line 273
applies it to `m_array`, the slot array of a leaf, which holds the keys array in
slot 0 and the refs array in slot 1 (lines 10-11).  Cut to two slots or more the
leaf keeps both arrays; cut to one slot it loses the refs array and is left
with its keys and without refs; cut to no slot it is left without keys too.
A leaf cut to one slot is written as a leaf with an empty refs array.  `Size`,
`IsEmpty`, `MaxValue`, `NodeAdd` and `DoInsert` on a full leaf read slot 0 only;
`Verify` fails on such a leaf (line 377). -/
def ResizeSlots (ndx : Nat) (values refs : List Int) : Node :=
  if ndx = 0 then .leaf [] []
  else if ndx = 1 then .leaf values []
  else .leaf values refs

/-- Lines 245-247: `newNode.NodeAdd(refs.Get(i))` for the given children, in
order. -/
def NodeAddAll (newNode : Node) : List Node → Except Fault Node
  | [] => .ok newNode
  | c :: cs =>
    match NodeAdd newNode c with
    | .error e => .error e
    | .ok (_, n) => NodeAddAll n cs

/-- Lines 227-251: link the new node reported by the child.  `ref2` is present
when the child reported a split. -/
def DoInsertLink (offsets : List Int) (refs : List Node) (node_ndx : Nat) (ref1 : Node)
    (ref2 : Option Node) : Except Fault (Node × NodeChange) :=
  if offsets.length < MAX_LIST_SIZE then
    match ref2 with
    | some r2 =>
      match NodeInsertSplit (.node offsets refs) node_ndx r2 with
      | .error e => .error e
      | .ok (b, self) => .ok (self, NodeChange.ofBool b)
    | Option.none =>
      match NodeInsert (.node offsets refs) node_ndx ref1 with
      | .error e => .error e
      | .ok (b, self) => .ok (self, NodeChange.ofBool b)
  else
    match NodeAdd emptyNode ref1 with
    | .error e => .error e
    | .ok (_, newNode) =>
      if node_ndx = 0 then .ok (.node offsets refs, NodeChange.insertBefore newNode)
      else if node_ndx = MAX_LIST_SIZE then
        .ok (.node offsets refs, NodeChange.insertAfter newNode)
      else
        match NodeAddAll newNode (refs.drop node_ndx) with
        | .error e => .error e
        | .ok newNode1 =>
          let self := Node.node (offsets.take node_ndx) (refs.take node_ndx)
          .ok (self, NodeChange.split self newNode1)

mutual
/-- Lines 197-278: `DoInsert`.  The result is the new state of the node and the
change reported to the caller.

In a leaf that is full, lines 270-273 run over `m_array`, the slot array of the
node, which holds two slots (lines 10-11, line 377), and the split signal is
returned in every case.  For `ndx >= 2` the loop body is never run and
`m_array.Resize(ndx)` cuts nothing, so the leaf keeps all its entries.  For
`ndx = 1` the loop body is run once, for slot 1: the handle of the refs array
is handed to `newList.Add`, and `m_array.Resize(1)` cuts the refs array off the
leaf (`ResizeSlots`).  `Column::Add` is absent from the sources; modelled from
the spec it is the `append(v)` of the backing array of the new list, which makes
a third slot there that no member function of the index reads (they read slots
0 and 1), so the new list keeps the one entry of line 261. -/
def DoInsert : Node → Nat → Int → Except Fault (Node × NodeChange)
  | .leaf values refs, ndx, value =>
    if Size (.leaf values refs) < MAX_LIST_SIZE then
      match LeafInsert (.leaf values refs) ndx value with
      | .error e => .error e
      | .ok (b, self) => .ok (self, NodeChange.ofBool b)
    else
      match LeafInsert empty ndx value with
      | .error e => .error e
      | .ok (false, _) => .ok (.leaf values refs, NodeChange.error)
      | .ok (true, newList) =>
        if ndx = 0 then .ok (.leaf values refs, NodeChange.insertBefore newList)
        else if ndx = MAX_LIST_SIZE then .ok (.leaf values refs, NodeChange.insertAfter newList)
        else .ok (ResizeSlots ndx values refs,
          NodeChange.split (ResizeSlots ndx values refs) newList)
  | .node offsets refs, ndx, value =>
    -- lines 204-208
    let node_ndx : Nat :=
      match FindPos2 offsets (toInt64 ndx) with
      | some p => p
      | Option.none => subSizeT offsets.length 1
    -- lines 211-212
    match (if node_ndx = 0 then .ok 0 else Get offsets (node_ndx - 1)) with
    | .error e => .error e
    | .ok prev =>
      let offset : Nat := if node_ndx = 0 then 0 else toSizeT prev
      let local_ndx : Nat := subSizeT ndx offset
      -- lines 215-218
      match DoInsertAt refs node_ndx local_ndx value with
      | .error e => .error e
      | .ok (refs1, nc) =>
        match nc with
        | NodeChange.error => .ok (.node offsets refs1, NodeChange.error)
        | NodeChange.none => .ok (.node (Increment offsets 1 node_ndx) refs1, NodeChange.none)
        | NodeChange.insertBefore ref1 =>
          DoInsertLink offsets refs1 node_ndx ref1 Option.none
        | NodeChange.insertAfter ref1 =>
          DoInsertLink offsets refs1 (node_ndx + 1) ref1 Option.none
        | NodeChange.split ref1 ref2 =>
          DoInsertLink offsets refs1 node_ndx ref1 (some ref2)
/-- Lines 215-218: `GetIndexFromRef(refs, node_ndx)` and the recursive call on
that child; the child is updated in place. -/
def DoInsertAt : List Node → Nat → Nat → Int → Except Fault (List Node × NodeChange)
  | [], _, _, _ => .error (.assertion 44)
  | c :: cs, 0, local_ndx, value =>
    match DoInsert c local_ndx value with
    | .error e => .error e
    | .ok (c1, nc) => .ok (c1 :: cs, nc)
  | c :: cs, i + 1, local_ndx, value =>
    match DoInsertAt cs i local_ndx value with
    | .error e => .error e
    | .ok (cs1, nc) => .ok (c :: cs1, nc)
end

/-- Lines 108-145: `Insert64`.  The result is the returned flag and the new
root. -/
def Insert64 (root : Node) (ndx : Nat) (value : Int) : Except Fault (Bool × Node) :=
  match DoInsert root ndx value with
  | .error e => .error e
  | .ok (self, nc) =>
    match nc with
    | NodeChange.error => .ok (false, self)
    | NodeChange.none => .ok (true, self)
    | NodeChange.insertBefore ref1 =>
      match NodeAdd emptyNode ref1 with
      | .error e => .error e
      | .ok (_, n1) =>
        match NodeAdd n1 self with
        | .error e => .error e
        | .ok (_, n2) => .ok (true, n2)
    | NodeChange.insertAfter ref1 =>
      match NodeAdd emptyNode self with
      | .error e => .error e
      | .ok (_, n1) =>
        match NodeAdd n1 ref1 with
        | .error e => .error e
        | .ok (_, n2) => .ok (true, n2)
    | NodeChange.split ref1 ref2 =>
      match NodeAdd emptyNode ref1 with
      | .error e => .error e
      | .ok (_, n1) =>
        match NodeAdd n1 ref2 with
        | .error e => .error e
        | .ok (_, n2) => .ok (true, n2)

/-- Lines 28-40: `BuildIndex` over the source column `src`, whose `Get64(i)` is
the element `i` of the list; the result of `Insert64` is ignored.  `rows` is the
part of the column not yet inserted, `i` the row position of its head. -/
def BuildLoop : Node → Nat → List Int → Except Fault Node
  | self, _, [] => .ok self
  | self, i, v :: rows =>
    match Insert64 self i v with
    | .error e => .error e
    | .ok (_, self1) => BuildLoop self1 (i + 1) rows

/-! ## Invariant check -/

mutual
/-- Lines 376-405: `Verify`, as a test: `true` when none of its assertions
fails.  The flags it checks on the slots (`HasRefs`) are fixed by the
constructors of `Node`; what remains is the equal length of keys and refs and,
in an internal node, that every key is `MaxValue` of the verified child. -/
def Verify : Node → Bool
  | .leaf offsets refs => offsets.length == refs.length
  | .node offsets refs => offsets.length == refs.length && VerifyRefs offsets refs
/-- Lines 390-400: the loop of `Verify` over the children. -/
def VerifyRefs : List Int → List Node → Bool
  | _, [] => true
  | [], _ :: _ => false
  | k :: ks, c :: cs => Verify c && k == MaxValue c && VerifyRefs ks cs
end

/-- Lines 28-40: `BuildIndex`; a build with `_DEBUG` ends with `Verify()`. -/
def BuildIndex (debug : Bool) (self : Node) (src : List Int) : Except Fault Node :=
  match BuildLoop self 0 src with
  | .error e => .error e
  | .ok self1 => if debug && !Verify self1 then .error (.assertion 384) else .ok self1

/-! ## Renumbering -/

mutual
/-- Lines 299-314: `UpdateRefs`. -/
def UpdateRefs : Node → Nat → Int → Except Fault Node
  | .leaf values refs, pos, diff =>
    if diff = 1 ∨ diff = -1 then .ok (.leaf values (IncrementIf refs (toInt64 pos) diff))
    else .error (.assertion 300)
  | .node values refs, pos, diff =>
    if diff = 1 ∨ diff = -1 then
      match UpdateRefsAll refs pos diff with
      | .error e => .error e
      | .ok refs1 => .ok (.node values refs1)
    else .error (.assertion 300)
/-- Lines 305-309: the loop of `UpdateRefs` over the children. -/
def UpdateRefsAll : List Node → Nat → Int → Except Fault (List Node)
  | [], _, _ => .ok []
  | c :: cs, pos, diff =>
    match UpdateRefs c pos diff with
    | .error e => .error e
    | .ok c1 =>
      match UpdateRefsAll cs pos diff with
      | .error e => .error e
      | .ok cs1 => .ok (c1 :: cs1)
end

/-! ## Deletion -/

/-- Lines 96-103: the scan of a leaf from `pos` for the row position
`(int)ndx`; the list is the refs array from `pos` on.  The first test is made
before the bound is looked at (`do ... while`). -/
def leafScan (ndx : Nat) : List Int → Nat → Except Fault (Option Nat)
  | [], _ => .error .outOfRange
  | r :: rs, pos =>
    if r = toInt32 ndx then .ok (some pos)
    else
      match rs with
      | [] => .ok Option.none
      | _ :: _ => leafScan ndx rs (pos + 1)

mutual
/-- Lines 67-106: `DoDelete`.  The result is the returned flag and the new
state of the node. -/
def DoDelete : Node → Nat → Int → Except Fault (Bool × Node)
  | .leaf values refs, ndx, value =>
    match FindPos2 values value with
    | Option.none => .error (.assertion 72)
    | some pos =>
      match leafScan ndx (refs.drop pos) pos with
      | .error e => .error e
      | .ok Option.none => .ok (false, .leaf values refs)
      | .ok (some p) =>
        if p < values.length then .ok (true, .leaf (values.eraseIdx p) (refs.eraseIdx p))
        else .error .outOfRange
  | .node values refs, ndx, value =>
    match FindPos2 values value with
    | Option.none => .error (.assertion 72)
    | some pos =>
      match DoDeleteFrom refs pos ndx value with
      | .error e => .error e
      | .ok (p, node) =>
        if IsEmpty node then .ok (true, .node values (refs.eraseIdx (pos + p)))
        else
          match Get values (pos + p) with
          | .error e => .error e
          | .ok k =>
            let maxval := MaxValue node
            let values1 := if maxval ≠ k then values.set (pos + p) maxval else values
            .ok (true, .node values1 (refs.set (pos + p) node))
/-- Lines 77-93: the loop over the children from `pos` on.  `skip` children
are passed over to reach `pos`; the result is the number of children tried
without success and the new state of the child in which the entry was
deleted. -/
def DoDeleteFrom : List Node → Nat → Nat → Int → Except Fault (Nat × Node)
  | [], _, _, _ => .error (.assertion 44)
  | _ :: cs, skip + 1, ndx, value => DoDeleteFrom cs skip ndx value
  | c :: cs, 0, ndx, value =>
    match DoDelete c ndx value with
    | .error e => .error e
    | .ok (true, c1) => .ok (0, c1)
    | .ok (false, _) =>
      match cs with
      | [] => .error (.assertion 93)
      | _ :: _ =>
        match DoDeleteFrom cs 0 ndx value with
        | .error e => .error e
        | .ok (p, c1) => .ok (p + 1, c1)
end

mutual
/-- Lines 52-61: the loop of `Delete` that replaces a root with a single child
by that child. -/
def collapse : Node → Except Fault Node
  | .leaf values refs => .ok (.leaf values refs)
  | .node values refs => collapseRefs values refs
/-- Lines 53-60: one turn of the loop, by the number of children. -/
def collapseRefs (values : List Int) : List Node → Except Fault Node
  | [] => .error (.assertion 54)
  | [c] => collapse c
  | c :: d :: cs => .ok (.node values (c :: d :: cs))
end

/-- Lines 48-65: `Delete`.  The result of `DoDelete` is ignored. -/
def Delete (root : Node) (ndx : Nat) (value : Int) : Except Fault Node :=
  match DoDelete root ndx value with
  | .error e => .error e
  | .ok (_, self) =>
    match collapse self with
    | .error e => .error e
    | .ok self1 => UpdateRefs self1 ndx (-1)

/-! ## Observation of the stored entries and call sequences -/

mutual
/-- The leaf entries `(key, row position)` of a tree, leaf by leaf from left to
right, each leaf pairing `keys[i]` with `refs[i]`. -/
def entries : Node → List (Int × Int)
  | .leaf keys refs => keys.zip refs
  | .node _ refs => entriesAll refs
/-- The leaf entries of a list of children. -/
def entriesAll : List Node → List (Int × Int)
  | [] => []
  | c :: cs => entries c ++ entriesAll cs
end

/-- The row positions stored in the tree for the value `v`. -/
def rowsOf (t : Node) (v : Int) : List Int :=
  ((entries t).filter fun e => e.1 = v).map Prod.snd

/-- A call made on the index by its owner. -/
inductive Op where
  | insert (ndx : Nat) (value : Int)
  | delete (ndx : Nat) (value : Int)

/-- One call on the index; the flag returned by `Insert64` is dropped. -/
def applyOp (t : Node) : Op → Except Fault Node
  | .insert ndx value =>
    match Insert64 t ndx value with
    | .error e => .error e
    | .ok (_, t1) => .ok t1
  | .delete ndx value => Delete t ndx value

/-- A sequence of calls, stopping at the first fault. -/
def run : Node → List Op → Except Fault Node
  | t, [] => .ok t
  | t, op :: ops =>
    match applyOp t op with
    | .error e => .error e
    | .ok t1 => run t1 ops

/-- The column rows `v_i, v_(i+1), ...` paired with their row positions as they
are stored in a leaf. -/
def rowsFrom : Nat → List Int → List (Int × Int)
  | _, [] => []
  | i, v :: vs => (v, toInt64 i) :: rowsFrom (i + 1) vs

/-- Insertion of `a` at the position found by `FindPos2`, or at the end. -/
def placeAt {α : Type} (xs : List α) (p : Option Nat) (a : α) : List α :=
  match p with
  | some i => Insert xs i a
  | Option.none => Add xs a

/-- The order of leaf entries by key. -/
def keyLE (a b : Int × Int) : Prop := a.1 ≤ b.1

instance : DecidableRel keyLE := fun a b => inferInstanceAs (Decidable (a.1 ≤ b.1))

/-! ## Invariants and observers of the tree -/

mutual
/-- The refs arrays of the leaves of a tree, from left to right. -/
def leafRefs : Node → List (List Int)
  | .leaf _ refs => [refs]
  | .node _ refs => leafRefsAll refs
/-- The refs arrays of the leaves under a list of children. -/
def leafRefsAll : List Node → List (List Int)
  | [] => []
  | c :: cs => leafRefs c ++ leafRefsAll cs
end

mutual
/-- The tree without its row positions: every node with its keys and its
children in place, every leaf with as many refs as it has, each set to 0. -/
def skeleton : Node → Node
  | .leaf keys refs => .leaf keys (List.replicate refs.length 0)
  | .node keys refs => .node keys (skeletonAll refs)
/-- The children without their row positions. -/
def skeletonAll : List Node → List Node
  | [] => []
  | c :: cs => skeleton c :: skeletonAll cs
end

/-- The renumbering of one stored row position by `UpdateRefs(pos, diff)`. -/
def shiftRow (pos : Nat) (diff : Int) (r : Int) : Int :=
  if toInt64 pos ≤ r then r + diff else r

mutual
/-- Well-formedness of a tree: in every node the keys are non-decreasing; in a
leaf they are as many as the refs; in an internal node there is one key for
every child, every child is well formed and holds at least one key, and the key
of its slot is its `MaxValue`. -/
def WellFormed : Node → Prop
  | .leaf keys refs => keys.length = refs.length ∧ keys.Sorted (· ≤ ·)
  | .node keys refs => keys.Sorted (· ≤ ·) ∧ WellFormedAll keys refs
/-- Well-formedness of the children of an internal node, slot by slot. -/
def WellFormedAll : List Int → List Node → Prop
  | [], [] => True
  | k :: ks, c :: cs => WellFormed c ∧ IsEmpty c = false ∧ k = MaxValue c ∧ WellFormedAll ks cs
  | [], _ :: _ => False
  | _ :: _, [] => False
end

mutual
/-- The capacity invariant of a tree: every node holds at most `MAX_LIST_SIZE`
entries, every internal node holds as many keys as children and at least one
child, and every child holds at least one key.  A leaf holds as many refs as
keys, or it is a full leaf whose refs array was cut by the split of lines
270-273. -/
def capOK : Node → Prop
  | .leaf keys refs =>
    keys.length ≤ MAX_LIST_SIZE ∧
      (refs.length = keys.length ∨ (keys.length = MAX_LIST_SIZE ∧ refs.length = 0))
  | .node keys refs =>
    keys.length = refs.length ∧ keys.length ≤ MAX_LIST_SIZE ∧ 0 < refs.length ∧ capAll refs
/-- The capacity invariant of every child in a list. -/
def capAll : List Node → Prop
  | [] => True
  | c :: cs => capOK c ∧ IsEmpty c = false ∧ capAll cs
end

/-- The capacity invariant of the nodes that a `NodeChange` hands to the caller:
each has the invariant and holds at least one key. -/
def NodeChange.capOK : NodeChange → Prop
  | .error => True
  | .none => True
  | .insertBefore ref1 => Index.capOK ref1 ∧ IsEmpty ref1 = false
  | .insertAfter ref1 => Index.capOK ref1 ∧ IsEmpty ref1 = false
  | .split ref1 ref2 =>
    Index.capOK ref1 ∧ IsEmpty ref1 = false ∧ Index.capOK ref2 ∧ IsEmpty ref2 = false

/-- The result "none": the insertion was absorbed without structural change. -/
def NodeChange.isNone : NodeChange → Bool
  | .none => true
  | _ => false

/-- The three signals by which `DoInsert` asks its caller to link a new node. -/
def NodeChange.isSignal : NodeChange → Bool
  | .insertBefore _ => true
  | .insertAfter _ => true
  | .split _ _ => true
  | _ => false

/-- A full leaf: the `MAX_LIST_SIZE` entries `(i, i)` for `i = 0..999`, the index
of the column `0, 1, ..., 999`. -/
def fullLeaf : Node :=
  .leaf ((List.range 1000).map Int.ofNat) ((List.range 1000).map Int.ofNat)

/-- A stored leaf entry together with `stamp`, the position in the sequence of
calls of the `Insert64` call that made it. -/
structure Stamped where
  key : Int
  row : Int
  stamp : Nat

/-- The keys array of a leaf that stores the given entries. -/
def stampedKeys (zs : List Stamped) : List Int := zs.map fun e => e.key

/-- The refs array of a leaf that stores the given entries. -/
def stampedRows (zs : List Stamped) : List Int := zs.map fun e => e.row

/-- The calls at which the given entries were made. -/
def stamps (zs : List Stamped) : List Nat := zs.map fun e => e.stamp

/-- A stored row position after the calls `later`: every `Delete(ndx, _)` among
them renumbers it by `UpdateRefs(ndx, -1)` (line 64), and `Insert64` leaves it as
it is. -/
def renumbered : Int → List Op → Int
  | r, [] => r
  | r, .insert _ _ :: later => renumbered r later
  | r, .delete ndx _ :: later => renumbered (shiftRow ndx (-1) r) later

/-- The calls are made on an index whose root is a leaf: every call returns, and
the root is a leaf before the first call and after every call. -/
def leafRun : Node → List Op → Bool
  | t, [] => !IsNode t
  | t, op :: ops =>
    !IsNode t &&
      match applyOp t op with
      | .ok t1 => leafRun t1 ops
      | .error _ => false

/-- The order in which a leaf stores its entries: by key, and among equal keys
the entry of the later call first. -/
def newerFirst (a b : Stamped) : Prop :=
  a.key ≤ b.key ∧ (a.key = b.key → b.stamp < a.stamp)

/-- The entries `zs` are a record of the calls `ops`: every entry was made by the
`Insert64` call at its stamp, with the key of that call and the row position of
that call as renumbered by the calls after it; the entries are stored in the
order `newerFirst`; and the entry of every `Insert64` call after which no
`Delete` was called is among them. -/
def Recorded (ops : List Op) (zs : List Stamped) : Prop :=
  (∀ e ∈ zs, ∃ r : Nat, ops[e.stamp]? = some (.insert r e.key) ∧
      e.row = renumbered (toInt64 r) (ops.drop (e.stamp + 1))) ∧
    zs.Pairwise newerFirst ∧
    ∀ (i r : Nat) (v : Int), ops[i]? = some (.insert r v) →
      (∀ (j n : Nat) (w : Int), i < j → ops[j]? ≠ some (.delete n w)) → i ∈ stamps zs

/-! ## Theorems: lookup after insertion -/

/-- An insertion of the value 0 into a leaf that holds fewer than
`MAX_LIST_SIZE` zeros is absorbed by the leaf. -/
theorem insert64_zero_leaf (i : Nat) (refs : List Int) (h : i < MAX_LIST_SIZE) :
    ∃ refs1, Insert64 (.leaf (List.replicate i 0) refs) i 0
      = .ok (true, .leaf (List.replicate (i + 1) 0) refs1) := by
  cases i with
  | zero => exact ⟨_, rfl⟩
  | succ k =>
    refine ⟨Insert refs 0 (toInt64 (k + 1)), ?_⟩
    simp [Insert64, DoInsert, Size, keysOf, h, LeafInsert, List.replicate_succ, FindPos2,
      NodeChange.ofBool, Insert]

/-- Building from a column that starts with `k` zeros fills one leaf with them,
as long as the leaf has room. -/
theorem buildLoop_zeros (k : Nat) :
    ∀ (i : Nat) (refs rest : List Int), i + k ≤ MAX_LIST_SIZE →
      ∃ refs1, BuildLoop (.leaf (List.replicate i 0) refs) i (List.replicate k 0 ++ rest)
        = BuildLoop (.leaf (List.replicate (i + k) 0) refs1) (i + k) rest := by
  induction k with
  | zero => intro i refs rest _; exact ⟨refs, rfl⟩
  | succ k ih =>
    intro i refs rest h
    obtain ⟨r1, h1⟩ := insert64_zero_leaf i refs (by omega)
    obtain ⟨r2, h2⟩ := ih (i + 1) r1 rest (by omega)
    refine ⟨r2, ?_⟩
    have e : i + (k + 1) = i + 1 + k := by omega
    rw [e, ← h2, List.replicate_succ, List.cons_append, BuildLoop, h1]

set_option maxRecDepth 100000 in
/-- Claim C1, evaluated where it fails: after `Insert64(i, 0)` for
`i = 0..1000` on an empty index (`MAX_LIST_SIZE + 1` insertions) the root is an
internal node over the new leaf `[(0, 1000)]` and the full old leaf, and
`Find(0)` does not return a row position: line 290 tests the flag of the root,
so the loop goes on from the leaf and follows the row position 1000 as a node
handle. -/
theorem C1_find_faults_after_root_split :
    ∃ refs, BuildLoop empty 0 (List.replicate 1001 0)
        = .ok (.node [0, 0] [.leaf [0] [1000], .leaf (List.replicate 1000 0) refs]) ∧
      Find (.node [0, 0] [.leaf [0] [1000], .leaf (List.replicate 1000 0) refs]) 0
        = .error Fault.refKind := by
  obtain ⟨refs, h⟩ := buildLoop_zeros 1000 0 [] [0] (by decide)
  refine ⟨refs, ?_, rfl⟩
  have e : List.replicate 1001 (0 : Int) = List.replicate 1000 0 ++ [0] := by
    rw [← List.replicate_succ']
  have e0 : (Node.leaf [] []) = Node.leaf (List.replicate 0 0) [] := rfl
  rw [empty, e, e0, h]
  simp [BuildLoop, Insert64, DoInsert, Size, keysOf, MAX_LIST_SIZE, LeafInsert, empty,
    FindPos2, Add, NodeAdd, emptyNode, IsEmpty, MaxValue, Insert, toInt64]

/-- Claim C2, evaluated where it fails: the tree with root keys `[5, 9]` over the
leaves `[(5, 0)]` and `[(9, 1)]` passes `Verify`, its leaf `[(9, 1)]` holds the
key 9 at row 1, and `Find(9)` does not return 1: the leaf test of line 290 is
made on the root, so the descent does not end at the leaf. -/
theorem C2_find_faults_under_internal_root :
    Verify (.node [5, 9] [.leaf [5] [0], .leaf [9] [1]]) = true ∧
      rowsOf (.node [5, 9] [.leaf [5] [0], .leaf [9] [1]]) 9 = [1] ∧
      Find (.node [5, 9] [.leaf [5] [0], .leaf [9] [1]]) 9 = .error Fault.refKind :=
  ⟨rfl, rfl, rfl⟩

/-- Claim C3, evaluated where it fails: in the index built from the column
`[10, 20, 30, 99]` the value 99 is stored at row 3; `Insert64(1, 55)` returns
`true` and leaves the stored row of 99 at 3, so `Find(99)` returns 3 and not 4:
`Insert64` never calls `UpdateRefs`. -/
theorem C3_insert_does_not_renumber :
    BuildLoop empty 0 [10, 20, 30, 99] = .ok (.leaf [10, 20, 30, 99] [0, 1, 2, 3]) ∧
      Insert64 (.leaf [10, 20, 30, 99] [0, 1, 2, 3]) 1 55
        = .ok (true, .leaf [10, 20, 30, 55, 99] [0, 1, 2, 1, 3]) ∧
      Find (.leaf [10, 20, 30, 55, 99] [0, 1, 2, 1, 3]) 99 = .ok 3 :=
  ⟨rfl, rfl, rfl⟩

/-! ## Theorems: deletion scenarios -/

/-- Claim C4, evaluated where it fails: the tree with root keys `[5, 5]` over the
leaves `[(5, 0), (5, 1)]` and `[(5, 2), (5, 3)]` passes `Verify` and holds the
value 5 at the four rows 0..3.  `Delete(2, 5)` removes the entry of row 2 and
keeps the three others, but the following `Find(5)` does not return a row: the
root is still internal, and `Find` tests the root's flag at the leaf. -/
theorem C4_find_after_delete_faults :
    Verify (.node [5, 5] [.leaf [5, 5] [0, 1], .leaf [5, 5] [2, 3]]) = true ∧
      Delete (.node [5, 5] [.leaf [5, 5] [0, 1], .leaf [5, 5] [2, 3]]) 2 5
        = .ok (.node [5, 5] [.leaf [5, 5] [0, 1], .leaf [5] [2]]) ∧
      Find (.node [5, 5] [.leaf [5, 5] [0, 1], .leaf [5] [2]]) 5 = .error Fault.refKind :=
  ⟨rfl, rfl, rfl⟩

/-- Claim C5, evaluated where it fails: a tree of height 3 that passes `Verify`,
with the value 5 stored at row 1 in the left subtree and at row 2 in the right
one, and 9 at row 3.  `Delete(2, 5)` does not renumber row 3 to 2: the left
subtree does not hold the entry, its loop over the children runs out and stops
at `assert(false)` of line 93 instead of reporting "not found here". -/
theorem C5_delete_stops_at_assertion :
    Verify (.node [5, 9] [.node [3, 5] [.leaf [3] [0], .leaf [5] [1]],
        .node [5, 9] [.leaf [5] [2], .leaf [9] [3]]]) = true ∧
      entries (.node [5, 9] [.node [3, 5] [.leaf [3] [0], .leaf [5] [1]],
        .node [5, 9] [.leaf [5] [2], .leaf [9] [3]]]) = [(3, 0), (5, 1), (5, 2), (9, 3)] ∧
      Delete (.node [5, 9] [.node [3, 5] [.leaf [3] [0], .leaf [5] [1]],
        .node [5, 9] [.leaf [5] [2], .leaf [9] [3]]]) 2 5 = .error (Fault.assertion 93) :=
  ⟨rfl, rfl, rfl⟩

/-- Claim C6 as stated does not hold: after `Insert64(0,10); Insert64(1,20);
Insert64(2,10); Delete(1,20)` on an empty index, the rows stored for the value
10 are not `{0, 2}`. -/
theorem C6_rows_0_2_counterexample :
    ¬ ∃ t, run empty [.insert 0 10, .insert 1 20, .insert 2 10, .delete 1 20] = .ok t ∧
      Find t 20 = .ok npos ∧
      (∃ r, Find t 10 = .ok r ∧ (r : Int) ∈ rowsOf t 10) ∧
      ∀ r, r ∈ rowsOf t 10 ↔ r = 0 ∨ r = 2 := by
  rintro ⟨t, ht, -, -, h⟩
  have e : run empty [.insert 0 10, .insert 1 20, .insert 2 10, .delete 1 20]
      = .ok (.leaf [10, 10] [1, 0]) := rfl
  rw [e] at ht
  injection ht with ht
  subst ht
  have h2 := (h 2).2 (Or.inr rfl)
  revert h2
  decide

/-- Claim C6, amended: after `Insert64(0,10); Insert64(1,20); Insert64(2,10);
Delete(1,20)` on an empty index, `Find(20)` returns not-found, `Find(10)`
returns one of the rows stored for 10, and the rows stored for 10 are exactly
`{0, 1}`: the deletion of row 1 renumbers the stored row 2 to 1. -/
theorem C6_deletion_scenario :
    ∃ t, run empty [.insert 0 10, .insert 1 20, .insert 2 10, .delete 1 20] = .ok t ∧
      Find t 20 = .ok npos ∧
      (∃ r, Find t 10 = .ok r ∧ (r : Int) ∈ rowsOf t 10) ∧
      ∀ r, r ∈ rowsOf t 10 ↔ r = 0 ∨ r = 1 := by
  refine ⟨.leaf [10, 10] [1, 0], rfl, rfl, ⟨1, rfl, by decide⟩, ?_⟩
  intro r
  have e : rowsOf (.leaf [10, 10] [1, 0]) 10 = [1, 0] := rfl
  rw [e]
  simp only [List.mem_cons, List.mem_singleton, List.not_mem_nil, or_false]
  exact Or.comm

/-! ## Theorems: the invariant check after a mutation -/

/-- Claim C8, evaluated where it fails: the tree with root keys `[5, 9]` over the
leaves `[(5, 0)]` and `[(9, 1)]` passes `Verify`; `Insert64(0, 3)` is absorbed by
the first leaf and returns `true`, and the new tree does not pass `Verify`:
line 221 adds one to the root keys from the slot of that leaf on, so they are
`[6, 10]` over children whose largest keys are 5 and 9. -/
theorem C8_insert_breaks_verify :
    Verify (.node [5, 9] [.leaf [5] [0], .leaf [9] [1]]) = true ∧
      Insert64 (.node [5, 9] [.leaf [5] [0], .leaf [9] [1]]) 0 3
        = .ok (true, .node [6, 10] [.leaf [3, 5] [0, 0], .leaf [9] [1]]) ∧
      Verify (.node [6, 10] [.leaf [3, 5] [0, 0], .leaf [9] [1]]) = false :=
  ⟨rfl, rfl, rfl⟩

/-- Claim C9, evaluated where it fails: the tree with root keys `[5, 9]` over the
leaves `[(5, 0)]` and `[(9, 1)]` passes `Verify`; `DoDelete(0, 5)` empties the
first leaf and returns `true`, and line 82 removes its slot from the refs of the
root only: the root is left with the two keys `[5, 9]` over one child, and does
not pass `Verify`. -/
theorem C9_emptied_child_keeps_its_key :
    Verify (.node [5, 9] [.leaf [5] [0], .leaf [9] [1]]) = true ∧
      DoDelete (.node [5, 9] [.leaf [5] [0], .leaf [9] [1]]) 0 5
        = .ok (true, .node [5, 9] [.leaf [9] [1]]) ∧
      Verify (.node [5, 9] [.leaf [9] [1]]) = false :=
  ⟨rfl, rfl, rfl⟩

/-- Claim C10, evaluated where it fails: the two-level tree with root keys
`[1, 2, 3]` over the leaves `[(1, 0)]`, `[(2, 1)]`, `[(3, 2)]` passes `Verify`.
`Delete(0, 1)` empties the first leaf and leaves the root with keys `[1, 2, 3]`
over the two leaves `[(2, 0)]` and `[(3, 1)]`.  The next `Delete(0, 2)`, of the
entry `(2, 0)` that is present, is routed by the stale keys to the leaf of 3
and stops at `assert(false)` of line 93: the tree is not brought down to a
single leaf. -/
theorem C10_delete_down_to_one_entry_stops :
    Verify (.node [1, 2, 3] [.leaf [1] [0], .leaf [2] [1], .leaf [3] [2]]) = true ∧
      Delete (.node [1, 2, 3] [.leaf [1] [0], .leaf [2] [1], .leaf [3] [2]]) 0 1
        = .ok (.node [1, 2, 3] [.leaf [2] [0], .leaf [3] [1]]) ∧
      entries (.node [1, 2, 3] [.leaf [2] [0], .leaf [3] [1]]) = [(2, 0), (3, 1)] ∧
      Delete (.node [1, 2, 3] [.leaf [2] [0], .leaf [3] [1]]) 0 2
        = .error (Fault.assertion 93) :=
  ⟨rfl, rfl, rfl, rfl⟩

/-! ## Theorems: bulk build of a leaf -/

/-- Placing under a head: the position found in the tail, moved by one. -/
theorem placeAt_cons {α : Type} (x : α) (xs : List α) (p : Option Nat) (a : α) :
    placeAt (x :: xs) (p.map (· + 1)) a = x :: placeAt xs p a := by
  cases p <;> simp [placeAt, Insert, Add]

/-- Placing an element makes the array one longer. -/
theorem placeAt_length {α : Type} (xs : List α) (p : Option Nat) (a : α) :
    (placeAt xs p a).length = xs.length + 1 := by
  cases p with
  | none => simp [placeAt, Add]
  | some i => simp [placeAt, Insert]; omega

/-- Placing a key and a row at the position `FindPos2` finds for the key is the
ordered insertion of the entry among the entries of the leaf. -/
theorem placeAt_zip (v x : Int) : ∀ (keys refs : List Int), keys.length = refs.length →
    (placeAt keys (FindPos2 keys v) v).zip (placeAt refs (FindPos2 keys v) x)
      = (keys.zip refs).orderedInsert keyLE (v, x) := by
  intro keys
  induction keys with
  | nil =>
    intro refs h
    cases refs with
    | nil => rfl
    | cons _ _ => simp at h
  | cons k ks ih =>
    intro refs h
    cases refs with
    | nil => simp at h
    | cons r rs =>
      simp only [List.length_cons, Nat.add_right_cancel_iff] at h
      by_cases hv : v ≤ k
      · simp [FindPos2, hv, placeAt, Insert, keyLE]
        rfl
      · have e : FindPos2 (k :: ks) v = (FindPos2 ks v).map (· + 1) := by
          simp [FindPos2, hv]
        rw [e, placeAt_cons, placeAt_cons, List.zip_cons_cons, ih rs h]
        simp [keyLE, hv]
        rfl

/-- `LeafInsert` on a leaf places the value and the row at the position found by
`FindPos2`. -/
theorem leafInsert_leaf (keys refs : List Int) (ref : Nat) (v : Int) :
    LeafInsert (.leaf keys refs) ref v
      = .ok (true, .leaf (placeAt keys (FindPos2 keys v) v)
          (placeAt refs (FindPos2 keys v) (toInt64 ref))) := by
  simp only [LeafInsert]
  cases FindPos2 keys v <;> rfl

/-- `Insert64` on a leaf root with room is `LeafInsert`. -/
theorem insert64_leaf (keys refs : List Int) (ref : Nat) (v : Int)
    (h : keys.length < MAX_LIST_SIZE) :
    Insert64 (.leaf keys refs) ref v
      = .ok (true, .leaf (placeAt keys (FindPos2 keys v) v)
          (placeAt refs (FindPos2 keys v) (toInt64 ref))) := by
  simp [Insert64, DoInsert, Size, keysOf, h, leafInsert_leaf, NodeChange.ofBool]

/-- The order by key is total. -/
theorem keyLE_total : ∀ a b : Int × Int, keyLE a b ∨ keyLE b a :=
  fun a b => Int.le_total a.1 b.1

/-- The order by key is transitive. -/
theorem keyLE_trans : ∀ a b c : Int × Int, keyLE a b → keyLE b c → keyLE a c :=
  fun _ _ _ h1 h2 => Int.le_trans h1 h2

/-- Ordered insertion keeps the entries sorted by key. -/
theorem sorted_orderedInsert (e : Int × Int) (l : List (Int × Int)) (h : l.Sorted keyLE) :
    (l.orderedInsert keyLE e).Sorted keyLE := by
  haveI : IsTotal (Int × Int) keyLE := ⟨keyLE_total⟩
  haveI : IsTrans (Int × Int) keyLE := ⟨keyLE_trans⟩
  exact h.orderedInsert e l

/-- On a leaf root `Find` looks at the first entry whose key is not below the
value, and returns its row when its key is the value. -/
theorem find_leaf (v : Int) : ∀ (keys refs : List Int), keys.length = refs.length →
    Find (.leaf keys refs) v =
      match (keys.zip refs).find? (fun e => decide (v ≤ e.1)) with
      | some e => if e.1 = v then .ok (toSizeT e.2) else .ok npos
      | Option.none => .ok npos := by
  intro keys
  induction keys with
  | nil =>
    intro refs h
    cases refs with
    | nil => rfl
    | cons _ _ => simp at h
  | cons k ks ih =>
    intro refs h
    cases refs with
    | nil => simp at h
    | cons r rs =>
      simp only [List.length_cons, Nat.add_right_cancel_iff] at h
      have ih1 := ih rs h
      simp only [Find, IsNode, FindLoop] at ih1 ⊢
      by_cases hv : v ≤ k
      · simp [FindPos2, hv, Get]
      · simp only [FindPos2, hv, if_false, List.zip_cons_cons, List.find?_cons, decide_False]
        cases hp : FindPos2 ks v with
        | none => 
          rw [hp] at ih1
          simp at ih1 ⊢
          exact ih1
        | some p =>
          rw [hp] at ih1
          simp [Get] at ih1 ⊢
          exact ih1



/-- A row position below `2 ^ 63` is stored and read back unchanged. -/
theorem toSizeT_toInt64 (i : Nat) (h : i < 2 ^ 63) : toSizeT (toInt64 i) = i := by
  unfold toSizeT toInt64
  omega

/-- In entries sorted by key that hold the key `v`, the first entry whose key is
not below `v` has the key `v`. -/
theorem find_sorted (v : Int) : ∀ (zs : List (Int × Int)) (r0 : Int), zs.Sorted keyLE →
    (v, r0) ∈ zs →
    ∃ r, zs.find? (fun e => decide (v ≤ e.1)) = some (v, r) ∧ (v, r) ∈ zs := by
  intro zs
  induction zs with
  | nil => intro r0 _ h; simp at h
  | cons z zs ih =>
    intro r0 hs hm
    rw [List.sorted_cons] at hs
    by_cases hv : v ≤ z.1
    · have hz : z.1 = v := by
        rcases List.mem_cons.1 hm with h | h
        · rw [← h]
        · exact Int.le_antisymm (hs.1 _ h) hv
      refine ⟨z.2, ?_, ?_⟩
      · simp [List.find?_cons, hv, ← hz]
      · rw [← hz]; exact List.mem_cons_self _ _
    · have hm1 : (v, r0) ∈ zs := by
        rcases List.mem_cons.1 hm with h | h
        · exact absurd (by rw [← h]) hv
        · exact h
      obtain ⟨r, h1, h2⟩ := ih r0 hs.2 hm1
      exact ⟨r, by simp [List.find?_cons, hv, h1], List.mem_cons_of_mem _ h2⟩

/-- The members of `rowsFrom i rows` are the rows with their positions. -/
theorem mem_rowsFrom (e : Int × Int) : ∀ (rows : List Int) (i : Nat),
    e ∈ rowsFrom i rows ↔ ∃ j, ∃ h : j < rows.length, e = (rows[j], toInt64 (i + j)) := by
  intro rows
  induction rows with
  | nil => intro i; simp [rowsFrom]
  | cons v vs ih =>
    intro i
    simp only [rowsFrom, List.mem_cons, ih, List.length_cons]
    constructor
    · rintro (h | ⟨j, hj, h⟩)
      · exact ⟨0, by omega, by simpa using h⟩
      · refine ⟨j + 1, by omega, ?_⟩
        rw [h]
        simp only [List.getElem_cons_succ, Prod.mk.injEq, true_and]
        congr 1
        omega
    · rintro ⟨j, hj, h⟩
      cases j with
      | zero => left; simpa using h
      | succ j =>
        right
        refine ⟨j, by omega, ?_⟩
        rw [h]
        simp only [List.getElem_cons_succ, Prod.mk.injEq, true_and]
        congr 1
        omega

/-- Building over a leaf with room for all the rows gives a leaf, sorted by key,
whose entries are the old ones and the rows with their positions. -/
theorem buildLoop_leaf : ∀ (rows : List Int) (i : Nat) (keys refs : List Int),
    keys.length = refs.length → keys.length + rows.length ≤ MAX_LIST_SIZE →
    (keys.zip refs).Sorted keyLE →
    ∃ keys1 refs1, BuildLoop (.leaf keys refs) i rows = .ok (.leaf keys1 refs1) ∧
      keys1.length = refs1.length ∧ (keys1.zip refs1).Sorted keyLE ∧
      (keys1.zip refs1).Perm (rowsFrom i rows ++ keys.zip refs) := by
  intro rows
  induction rows with
  | nil =>
    intro i keys refs hl _ hs
    exact ⟨keys, refs, rfl, hl, hs, by simp [rowsFrom]⟩
  | cons v vs ih =>
    intro i keys refs hl hn hs
    simp only [List.length_cons] at hn
    have hz := placeAt_zip v (toInt64 i) keys refs hl
    obtain ⟨k1, r1, hb, hl1, hs1, hp1⟩ := ih (i + 1)
      (placeAt keys (FindPos2 keys v) v) (placeAt refs (FindPos2 keys v) (toInt64 i))
      (by rw [placeAt_length, placeAt_length, hl])
      (by rw [placeAt_length]; omega)
      (by rw [hz]; exact sorted_orderedInsert _ _ hs)
    refine ⟨k1, r1, ?_, hl1, hs1, ?_⟩
    · rw [BuildLoop, insert64_leaf keys refs i v (by omega)]
      exact hb
    · rw [hz] at hp1
      refine hp1.trans ?_
      simp only [rowsFrom, List.cons_append]
      exact ((List.perm_orderedInsert keyLE _ _).append_left _).trans List.perm_middle

/-- Claim C7, amended: for every source column of pairwise distinct values with
at most `MAX_LIST_SIZE` rows, `BuildIndex` on an empty index returns, and in the
index it yields `Find(v_i)` returns `i` for every row `i`. -/
theorem C7_build_distinct (src : List Int) (debug : Bool) (hd : src.Nodup)
    (hn : src.length ≤ MAX_LIST_SIZE) :
    ∃ t, BuildIndex debug empty src = .ok t ∧
      ∀ (i : Nat) (h : i < src.length), Find t src[i] = .ok i := by
  obtain ⟨k1, r1, hb, hl, hs, hp⟩ := buildLoop_leaf src 0 [] [] rfl (by simpa using hn)
    (by simp [List.Sorted])
  refine ⟨.leaf k1 r1, ?_, ?_⟩
  · simp [BuildIndex, empty, hb, Verify, hl]
  · intro i h
    simp only [List.zip_nil_right, List.append_nil] at hp
    have hm : (src[i], toInt64 (0 + i)) ∈ k1.zip r1 :=
      hp.mem_iff.2 ((mem_rowsFrom _ src 0).2 ⟨i, h, rfl⟩)
    obtain ⟨r, hf, hr⟩ := find_sorted src[i] _ _ hs hm
    obtain ⟨j, hj, he⟩ := (mem_rowsFrom _ src 0).1 (hp.mem_iff.1 hr)
    simp only [Prod.mk.injEq, Nat.zero_add] at he
    have hij : i = j := (List.Nodup.getElem_inj_iff hd).1 he.1
    subst hij
    rw [find_leaf _ _ _ hl, hf]
    simp only [if_true, he.2]
    rw [toSizeT_toInt64 i (by have : MAX_LIST_SIZE = 1000 := rfl; omega)]

/-- Claim C7 as stated does not hold for a column with a repeated value: built
from `[10, 10]`, the index answers `Find(10)` with one row, so not with `i` for
both rows `i`. -/
theorem C7_repeated_value_counterexample :
    ¬ ∃ t, BuildIndex false empty [10, 10] = .ok t ∧
      ∀ (i : Nat) (h : i < ([10, 10] : List Int).length),
        Find t ([10, 10] : List Int)[i] = .ok i := by
  rintro ⟨t, ht, h⟩
  have e : BuildIndex false empty [10, 10] = .ok (.leaf [10, 10] [1, 0]) := rfl
  rw [e] at ht
  injection ht with ht
  subst ht
  have h0 := h 0 (by decide)
  revert h0
  simp [Find, IsNode, FindLoop, FindPos2, Get, toSizeT]

/-- The amended claim C7 at the column `[30, 10, 20]`. -/
theorem C7_build_distinct_witness :
    ([30, 10, 20] : List Int).Nodup ∧ ([30, 10, 20] : List Int).length ≤ MAX_LIST_SIZE ∧
      ∃ t, BuildIndex true empty [30, 10, 20] = .ok t ∧
        ∀ (i : Nat) (h : i < ([30, 10, 20] : List Int).length),
          Find t ([30, 10, 20] : List Int)[i] = .ok i :=
  ⟨by decide, by decide, C7_build_distinct [30, 10, 20] true (by decide) (by decide)⟩

/-! ## Theorems: the first split of the root -/

/-- `FindPos2` finds no position when every key is below the value. -/
theorem findPos2_none (v : Int) : ∀ (keys : List Int), (∀ k ∈ keys, k < v) → FindPos2 keys v = Option.none := by
  intro keys
  induction keys with
  | nil => intro _; rfl
  | cons k ks ih =>
    intro h
    have hk : ¬ v ≤ k := not_le.2 (h k (List.mem_cons_self _ _))
    simp [FindPos2, hk, ih (fun x hx => h x (List.mem_cons_of_mem _ hx))]

/-- Building from rows that continue the keys of a leaf in strictly increasing
order appends them to the leaf, as long as the leaf has room. -/
theorem buildLoop_increasing : ∀ (rows : List Int) (i : Nat) (keys refs rest : List Int),
    keys.length + rows.length ≤ MAX_LIST_SIZE → (keys ++ rows).Sorted (· < ·) →
    BuildLoop (.leaf keys refs) i (rows ++ rest)
      = BuildLoop (.leaf (keys ++ rows) (refs ++ (rowsFrom i rows).map Prod.snd))
          (i + rows.length) rest := by
  intro rows
  induction rows with
  | nil => intro i keys refs rest _ _; simp [rowsFrom]
  | cons v vs ih =>
    intro i keys refs rest hn hs
    simp only [List.length_cons] at hn
    have hlt : ∀ k ∈ keys, k < v := by
      intro k hk
      exact (List.pairwise_append.1 hs).2.2 k hk v (List.mem_cons_self _ _)
    have hs1 : ((keys ++ [v]) ++ vs).Sorted (· < ·) := by simpa using hs
    have h1 := ih (i + 1) (keys ++ [v]) (refs ++ [toInt64 i]) rest
      (by simp only [List.length_append, List.length_singleton]; omega) hs1
    rw [List.cons_append, BuildLoop, insert64_leaf keys refs i v (by omega), findPos2_none v keys hlt]
    simp only [placeAt, Add]
    rw [h1]
    simp only [rowsFrom, List.map_cons, List.append_assoc, List.singleton_append, List.length_cons]
    congr 1
    omega

/-- `MaxValue` of a leaf with keys is one of its keys. -/
theorem getLast?_mem_of_maxValue (keys refs : List Int) (h : keys ≠ []) :
    MaxValue (.leaf keys refs) ∈ keys := by
  unfold MaxValue keysOf
  cases hk : keys.getLast? with
  | none => simp [List.getLast?_eq_none_iff] at hk; exact absurd hk h
  | some m => exact List.mem_of_getLast?_eq_some hk

/-- The rows of two parts of a column, with their positions. -/
theorem rowsFrom_append : ∀ (a b : List Int) (i : Nat),
    rowsFrom i (a ++ b) = rowsFrom i a ++ rowsFrom (i + a.length) b := by
  intro a
  induction a with
  | nil => intro b i; simp [rowsFrom]
  | cons x xs ih =>
    intro b i
    have e : i + 1 + xs.length = i + (xs.length + 1) := by omega
    rw [List.cons_append, rowsFrom, rowsFrom, ih, e, List.cons_append, List.length_cons]

/-- Pairing a column with the row positions of its rows gives the rows with
their positions. -/
theorem zip_rowsFrom : ∀ (a : List Int) (i : Nat),
    a.zip ((rowsFrom i a).map Prod.snd) = rowsFrom i a := by
  intro a
  induction a with
  | nil => intro i; rfl
  | cons x xs ih => intro i; simp [rowsFrom, ih]

/-- Claim C11: `Insert64(i, v_i)` for `i = 0..MAX_LIST_SIZE` with strictly
increasing values `v_i`, on an empty index, returns a tree whose root is an
internal node with exactly two children `l0` and `l1`, both leaves; the root keys
are `MaxValue` of the two leaves, in non-decreasing order, each the largest key
of its leaf; and the entries of the two leaves together are the
`MAX_LIST_SIZE + 1` rows `(v_i, i)`. -/
theorem C11_root_split (src : List Int) (hl : src.length = MAX_LIST_SIZE + 1)
    (hs : src.Sorted (· < ·)) :
    ∃ l0 l1, BuildLoop empty 0 src = .ok (.node [MaxValue l0, MaxValue l1] [l0, l1]) ∧
      IsNode l0 = false ∧ IsNode l1 = false ∧ MaxValue l0 ≤ MaxValue l1 ∧
      (∀ e ∈ entries l0, e.1 ≤ MaxValue l0) ∧ (∀ e ∈ entries l1, e.1 ≤ MaxValue l1) ∧
      entries l0 ++ entries l1 = rowsFrom 0 src := by
  have hM : MAX_LIST_SIZE = 1000 := rfl
  obtain ⟨x, hx⟩ : ∃ x, src.drop 1000 = [x] := by
    have : (src.drop 1000).length = 1 := by rw [List.length_drop, hl, hM]
    match h : src.drop 1000, this with
    | [x], _ => exact ⟨x, rfl⟩
  have hlen : (src.take 1000).length = 1000 := by rw [List.length_take, hl, hM]; rfl
  have hsrc : src = src.take 1000 ++ [x] := by rw [← hx, List.take_append_drop]
  generalize src.take 1000 = K at hlen hsrc
  subst hsrc
  have hne : K ≠ [] := by
    intro h; rw [h] at hlen; simp at hlen
  have hmem := getLast?_mem_of_maxValue K ((rowsFrom 0 K).map Prod.snd) hne
  have hKx : ∀ k ∈ K, k < x := fun k hk =>
    (List.pairwise_append.1 hs).2.2 k hk x (List.mem_singleton_self _)
  have hKs : K.Sorted (· < ·) := hs.sublist (List.sublist_append_left _ _)
  have hb := buildLoop_increasing K 0 [] [] [x] (by simp [hlen, hM]) (by simpa using hKs)
  simp only [List.nil_append, Nat.zero_add, hlen] at hb
  have hlt := hKx _ hmem
  refine ⟨.leaf K ((rowsFrom 0 K).map Prod.snd), .leaf [x] [toInt64 1000], ?_, rfl, rfl,
    ?_, ?_, ?_, ?_⟩
  · rw [empty, hb]
    have hnx : ¬ x ≤ MaxValue (.leaf K ((rowsFrom 0 K).map Prod.snd)) := not_le.2 hlt
    have hx1 : MaxValue (.leaf [x] [toInt64 1000]) = x := rfl
    simp [BuildLoop, Insert64, DoInsert, Size, keysOf, hlen, MAX_LIST_SIZE, LeafInsert, empty,
      FindPos2, Add, NodeAdd, emptyNode, IsEmpty, hne, hnx, hx1]
  · exact le_of_lt hlt
  · intro e he
    have hk : e.1 ∈ K := (List.of_mem_zip (a := e.1) (b := e.2) (by simpa [entries] using he)).1
    have hmax : ∀ k ∈ K, k ≤ MaxValue (.leaf K ((rowsFrom 0 K).map Prod.snd)) := by
      intro k hk
      unfold MaxValue keysOf
      cases hg : K.getLast? with
      | none => simp [List.getLast?_eq_none_iff] at hg; exact absurd hg hne
      | some m =>
        simp only
        obtain ⟨ys, hys⟩ : ∃ ys, K = ys ++ [m] := by
          rw [List.getLast?_eq_some_iff] at hg; exact hg
        subst hys
        rcases List.mem_append.1 hk with h | h
        · exact le_of_lt ((List.pairwise_append.1 hKs).2.2 k h m (List.mem_singleton_self _))
        · rw [List.mem_singleton.1 h]
    exact hmax _ hk
  · intro e he
    simp only [entries, List.zip_cons_cons, List.zip_nil_right, List.mem_singleton] at he
    rw [he]
    exact le_refl _
  · simp only [entries]
    rw [zip_rowsFrom, rowsFrom_append, hlen]
    rfl

/-- Claim C11 at the column `0, 1, ..., 1000`. -/
theorem C11_root_split_witness :
    ((List.range 1001).map Int.ofNat).length = MAX_LIST_SIZE + 1 ∧
      ((List.range 1001).map Int.ofNat).Sorted (· < ·) ∧
      ∃ l0 l1, BuildLoop empty 0 ((List.range 1001).map Int.ofNat)
          = .ok (.node [MaxValue l0, MaxValue l1] [l0, l1]) ∧
        IsNode l0 = false ∧ IsNode l1 = false ∧ MaxValue l0 ≤ MaxValue l1 ∧
        (∀ e ∈ entries l0, e.1 ≤ MaxValue l0) ∧ (∀ e ∈ entries l1, e.1 ≤ MaxValue l1) ∧
        entries l0 ++ entries l1 = rowsFrom 0 ((List.range 1001).map Int.ofNat) :=
  ⟨by simp [MAX_LIST_SIZE],
    (List.pairwise_lt_range 1001).map Int.ofNat (fun _ _ h => Int.ofNat_lt.2 h),
    C11_root_split _ (by simp [MAX_LIST_SIZE])
      ((List.pairwise_lt_range 1001).map Int.ofNat (fun _ _ h => Int.ofNat_lt.2 h))⟩

/-! ## Theorems: insertion into a leaf -/

/-- A position found by `FindPos2` is inside the array. -/
theorem findPos2_lt (v : Int) : ∀ (keys : List Int) (p : Nat), FindPos2 keys v = some p → p < keys.length := by
  intro keys
  induction keys with
  | nil => intro p h; simp [FindPos2] at h
  | cons k ks ih =>
    intro p h
    by_cases hv : v ≤ k
    · simp [FindPos2, hv] at h; subst h; simp
    · simp only [FindPos2, hv, if_false, Option.map_eq_some'] at h
      obtain ⟨q, hq, rfl⟩ := h
      have := ih q hq
      simp only [List.length_cons]; omega

/-- Placing into an array as long as the keys is an `Insert` at the position
found, or at the end. -/
theorem placeAt_eq_insert {α : Type} (keys : List Int) (v : Int) (xs : List α) (a : α)
    (h : keys.length = xs.length) :
    placeAt xs (FindPos2 keys v) a = Insert xs ((FindPos2 keys v).getD keys.length) a := by
  cases hp : FindPos2 keys v with
  | none => simp [placeAt, Add, Insert, h]
  | some p => simp [placeAt]

/-- Placing a key at the position `FindPos2` finds for it is the ordered
insertion of the key. -/
theorem placeAt_keys (v : Int) : ∀ (keys : List Int),
    placeAt keys (FindPos2 keys v) v = keys.orderedInsert (· ≤ ·) v := by
  intro keys
  induction keys with
  | nil => rfl
  | cons k ks ih =>
    by_cases hv : v ≤ k
    · simp [FindPos2, hv, placeAt, Insert]
    · have e : FindPos2 (k :: ks) v = (FindPos2 ks v).map (· + 1) := by simp [FindPos2, hv]
      rw [e, placeAt_cons, ih]
      simp [hv]

/-- The element put in by `Insert` sits at the position given. -/
theorem insert_getElem? {α : Type} (xs : List α) (p : Nat) (a : α) (h : p ≤ xs.length) :
    (Insert xs p a)[p]? = some a := by
  unfold Insert
  rw [List.getElem?_append_right (by simp [h])]
  simp [h]

/-- Taking out the element put in by `Insert` gives the array back. -/
theorem insert_eraseIdx {α : Type} (xs : List α) (p : Nat) (a : α) (h : p ≤ xs.length) :
    (Insert xs p a).eraseIdx p = xs := by
  unfold Insert
  rw [List.eraseIdx_append_of_length_le (by simp [h])]
  simp [h]

/-- In a non-decreasing array the positions of one value are contiguous. -/
theorem sorted_block (l : List Int) (hs : l.Sorted (· ≤ ·)) (v : Int) (i j k : Nat)
    (hij : i ≤ j) (hjk : j ≤ k) (hi : l[i]? = some v) (hk : l[k]? = some v) : l[j]? = some v := by
  have hk1 : k < l.length := (List.getElem?_eq_some_iff.1 hk).1
  have hj1 : j < l.length := by omega
  have hi1 : i < l.length := by omega
  have ei : l[i] = v := (List.getElem?_eq_some_iff.1 hi).2
  have ek : l[k] = v := (List.getElem?_eq_some_iff.1 hk).2
  rw [List.getElem?_eq_some_iff]
  refine ⟨hj1, ?_⟩
  have h1 : l[i] ≤ l[j] := by
    rcases Nat.eq_or_lt_of_le hij with h | h
    · subst h; exact le_refl _
    · exact List.pairwise_iff_getElem.1 hs i j hi1 hj1 h
  have h2 : l[j] ≤ l[k] := by
    rcases Nat.eq_or_lt_of_le hjk with h | h
    · subst h; exact le_refl _
    · exact List.pairwise_iff_getElem.1 hs j k hj1 hk1 h
  omega

/-- Claim C14: for every leaf with non-decreasing keys and with keys and refs of
equal length, `LeafInsert(ref, value)` returns `true` and a leaf whose two arrays
are one longer, whose keys are non-decreasing, which holds `value` and the row
`ref` (stored as `int64_t`) at one common position `p`, whose arrays without
the position `p` are the arrays before the call (every other entry keeps its
pairing and its order), and in which the positions of the key `value` are
contiguous. -/
theorem C14_leaf_insert_sorted_paired (keys refs : List Int) (ref : Nat) (value : Int)
    (hs : keys.Sorted (· ≤ ·)) (hl : keys.length = refs.length) :
    ∃ (keys1 refs1 : List Int) (p : Nat), LeafInsert (.leaf keys refs) ref value = .ok (true, .leaf keys1 refs1) ∧
      keys1.length = keys.length + 1 ∧ refs1.length = refs.length + 1 ∧
      keys1.Sorted (· ≤ ·) ∧
      keys1[p]? = some value ∧ refs1[p]? = some (toInt64 ref) ∧
      keys1.eraseIdx p = keys ∧ refs1.eraseIdx p = refs ∧
      ∀ i j k : Nat, i ≤ j → j ≤ k → keys1[i]? = some value → keys1[k]? = some value →
        keys1[j]? = some value := by
  have hp : (FindPos2 keys value).getD keys.length ≤ keys.length := by
    cases h : FindPos2 keys value with
    | none => simp
    | some p => simpa using le_of_lt (findPos2_lt value keys p h)
  have hsort : (placeAt keys (FindPos2 keys value) value).Sorted (· ≤ ·) := by
    rw [placeAt_keys]; exact hs.orderedInsert value keys
  refine ⟨placeAt keys (FindPos2 keys value) value,
    placeAt refs (FindPos2 keys value) (toInt64 ref),
    (FindPos2 keys value).getD keys.length, leafInsert_leaf keys refs ref value,
    placeAt_length _ _ _, placeAt_length _ _ _, hsort, ?_, ?_, ?_, ?_, ?_⟩
  · rw [placeAt_eq_insert keys value keys value rfl]; exact insert_getElem? _ _ _ hp
  · rw [placeAt_eq_insert keys value refs _ hl]; exact insert_getElem? _ _ _ (hl ▸ hp)
  · rw [placeAt_eq_insert keys value keys value rfl]; exact insert_eraseIdx _ _ _ hp
  · rw [placeAt_eq_insert keys value refs _ hl]; exact insert_eraseIdx _ _ _ (hl ▸ hp)
  · intro i j k hij hjk hi hk
    exact sorted_block _ hsort value i j k hij hjk hi hk

/-- Claim C14 at the leaf `[(10,0), (20,1), (20,2), (30,3)]` and `LeafInsert(4, 20)`. -/
theorem C14_leaf_insert_sorted_paired_witness :
    ([10, 20, 20, 30] : List Int).Sorted (· ≤ ·) ∧
      ([10, 20, 20, 30] : List Int).length = ([0, 1, 2, 3] : List Int).length ∧
      ∃ (keys1 refs1 : List Int) (p : Nat), LeafInsert (.leaf [10, 20, 20, 30] [0, 1, 2, 3]) 4 20
          = .ok (true, .leaf keys1 refs1) ∧
        keys1.length = ([10, 20, 20, 30] : List Int).length + 1 ∧
        refs1.length = ([0, 1, 2, 3] : List Int).length + 1 ∧
        keys1.Sorted (· ≤ ·) ∧
        keys1[p]? = some 20 ∧ refs1[p]? = some (toInt64 4) ∧
        keys1.eraseIdx p = [10, 20, 20, 30] ∧ refs1.eraseIdx p = [0, 1, 2, 3] ∧
        ∀ i j k : Nat, i ≤ j → j ≤ k → keys1[i]? = some 20 → keys1[k]? = some 20 →
          keys1[j]? = some 20 :=
  ⟨by decide, by decide, C14_leaf_insert_sorted_paired [10, 20, 20, 30] [0, 1, 2, 3] 4 20
    (by decide) (by decide)⟩

/-! ## Theorems: the split of a full leaf and the retry of `DoDelete` -/

set_option maxRecDepth 100000 in
/-- Claim C12, evaluated where it fails: the leaf `fullLeaf` holds the
`MAX_LIST_SIZE` entries `(i, i)`, `i = 0..999`.  `Insert64(1, 7)` takes the split
path with `ndx = 1`: the loop of lines 270-272 runs over the two slots of
`m_array`, not over the entries, and line 273 cuts the refs array off the leaf:
`Insert64` returns `true`, the old leaf is left with its keys and without refs,
the tree holds the new entry alone and does not pass `Verify`.  `Insert64(2, 7)`
takes the split path with `ndx = 2`: the loop body is never run and nothing is
cut, so the old leaf keeps all its `MAX_LIST_SIZE` entries and the new sibling
holds the new entry alone; no upper part is moved. -/
theorem C12_split_moves_no_entries :
    Size fullLeaf = MAX_LIST_SIZE ∧ Verify fullLeaf = true ∧
      Insert64 fullLeaf 1 7
        = .ok (true, .node [7, 999] [.leaf [7] [1], .leaf (keysOf fullLeaf) []]) ∧
      entries (.node [7, 999] [.leaf [7] [1], .leaf (keysOf fullLeaf) []]) = [(7, 1)] ∧
      Verify (.node [7, 999] [.leaf [7] [1], .leaf (keysOf fullLeaf) []]) = false ∧
      Insert64 fullLeaf 2 7 = .ok (true, .node [7, 999] [.leaf [7] [2], fullLeaf]) :=
  ⟨rfl, rfl, rfl, rfl, rfl, rfl⟩

/-- Claim C13, evaluated where it fails: a tree of height 3 that passes `Verify`
and holds the value 5 at the rows 0..3, two in each subtree of the root.  The
entry `(5, 2)` is present, in the right subtree.  `DoDelete(2, 5)` goes to the
left subtree first; its two leaves report `false`, its loop over the children
runs out and reaches `assert(false)` of line 93, instead of reporting "not found
here" to the root. -/
theorem C13_delete_reaches_assertion :
    Verify (.node [5, 5] [.node [5, 5] [.leaf [5] [0], .leaf [5] [1]],
        .node [5, 5] [.leaf [5] [2], .leaf [5] [3]]]) = true ∧
      (5, 2) ∈ entries (.node [5, 5] [.node [5, 5] [.leaf [5] [0], .leaf [5] [1]],
        .node [5, 5] [.leaf [5] [2], .leaf [5] [3]]]) ∧
      DoDelete (.node [5, 5] [.node [5, 5] [.leaf [5] [0], .leaf [5] [1]],
        .node [5, 5] [.leaf [5] [2], .leaf [5] [3]]]) 2 5 = .error (Fault.assertion 93) :=
  ⟨rfl, by decide, rfl⟩

/-! ## Theorems: renumbering by `UpdateRefs` -/

/-! `UpdateRefs` returns for `diff` in `{+1, -1}`; it maps the refs of every leaf
by `shiftRow` and keeps the skeleton. -/
mutual
theorem updateRefs_spec (pos : Nat) (diff : Int) (hd : diff = 1 ∨ diff = -1) :
    ∀ t : Node, ∃ t1, UpdateRefs t pos diff = .ok t1 ∧
      leafRefs t1 = (leafRefs t).map (List.map (shiftRow pos diff)) ∧
      skeleton t1 = skeleton t
  | .leaf keys refs => by
    refine ⟨.leaf keys (IncrementIf refs (toInt64 pos) diff), ?_, ?_, ?_⟩
    · simp [UpdateRefs, hd]
    · simp [leafRefs, IncrementIf, shiftRow]
    · simp [skeleton, IncrementIf]
  | .node keys cs => by
    obtain ⟨cs1, h1, h2, h3⟩ := updateRefsAll_spec pos diff hd cs
    refine ⟨.node keys cs1, ?_, ?_, ?_⟩
    · simp [UpdateRefs, hd, h1]
    · simpa [leafRefs] using h2
    · simp [skeleton, h3]
theorem updateRefsAll_spec (pos : Nat) (diff : Int) (hd : diff = 1 ∨ diff = -1) :
    ∀ cs : List Node, ∃ cs1, UpdateRefsAll cs pos diff = .ok cs1 ∧
      leafRefsAll cs1 = (leafRefsAll cs).map (List.map (shiftRow pos diff)) ∧
      skeletonAll cs1 = skeletonAll cs
  | [] => ⟨[], rfl, rfl, rfl⟩
  | c :: cs => by
    obtain ⟨c1, h1, h2, h3⟩ := updateRefs_spec pos diff hd c
    obtain ⟨cs1, g1, g2, g3⟩ := updateRefsAll_spec pos diff hd cs
    refine ⟨c1 :: cs1, ?_, ?_, ?_⟩
    · simp [UpdateRefsAll, h1, g1]
    · simp [leafRefsAll, h2, g2]
    · simp [skeletonAll, h3, g3]
end

/-- A row position below `2 ^ 63` is its own `int64_t`. -/
theorem toInt64_small (n : Nat) (h : n < 2 ^ 63) : toInt64 n = n := by
  unfold toInt64
  omega

/-- Claim C15: for every tree, every position `pos` and `diff` in `{+1, -1}`,
`UpdateRefs(pos, diff)` returns; in every leaf, from left to right, every stored
row position that is `>= pos` (compared as `int64_t`, which for `pos < 2 ^ 63` is
`pos` itself) has `diff` added and every other one is unchanged; and the tree
without its row positions (every key of every node, every child in its slot,
the shape, the number of refs of every leaf) is unchanged. -/
theorem C15_updateRefs_frame (t : Node) (pos : Nat) (diff : Int) (hd : diff = 1 ∨ diff = -1) :
    ∃ t1, UpdateRefs t pos diff = .ok t1 ∧
      leafRefs t1 = (leafRefs t).map
        (List.map fun r => if toInt64 pos ≤ r then r + diff else r) ∧
      skeleton t1 = skeleton t ∧
      (pos < 2 ^ 63 → toInt64 pos = pos) := by
  obtain ⟨t1, h1, h2, h3⟩ := updateRefs_spec pos diff hd t
  exact ⟨t1, h1, h2, h3, toInt64_small pos⟩

/-- Claim C15 at a two-level tree, `pos = 1` and `diff = -1`. -/
theorem C15_updateRefs_frame_witness :
    ((-1 : Int) = 1 ∨ (-1 : Int) = -1) ∧
      ∃ t1, UpdateRefs (.node [5, 9] [.leaf [3, 5] [4, 0], .leaf [9] [1]]) 1 (-1) = .ok t1 ∧
        leafRefs t1 = (leafRefs (.node [5, 9] [.leaf [3, 5] [4, 0], .leaf [9] [1]])).map
          (List.map fun r => if toInt64 1 ≤ r then r + (-1) else r) ∧
        skeleton t1 = skeleton (.node [5, 9] [.leaf [3, 5] [4, 0], .leaf [9] [1]]) ∧
        (1 < 2 ^ 63 → toInt64 1 = (1 : Nat)) :=
  ⟨Or.inr rfl, C15_updateRefs_frame _ 1 (-1) (Or.inr rfl)⟩

/-! ## Theorems: the largest key -/

/-- The last element of a non-decreasing array bounds every element. -/
theorem sorted_le_getLast (l : List Int) (hs : l.Sorted (· ≤ ·)) (m : Int)
    (h : l.getLast? = some m) : ∀ k ∈ l, k ≤ m := by
  obtain ⟨ys, rfl⟩ : ∃ ys, l = ys ++ [m] := by
    rw [List.getLast?_eq_some_iff] at h; exact h
  intro k hk
  rcases List.mem_append.1 hk with h1 | h1
  · exact (List.pairwise_append.1 hs).2.2 k h1 m (List.mem_singleton_self _)
  · rw [List.mem_singleton.1 h1]

/-- `MaxValue` of a node with keys is its last key. -/
theorem maxValue_eq_getLast (n : Node) (h : IsEmpty n = false) :
    (keysOf n).getLast? = some (MaxValue n) := by
  unfold MaxValue
  cases hk : (keysOf n).getLast? with
  | none =>
    rw [List.getLast?_eq_none_iff] at hk
    simp [IsEmpty, hk] at h
  | some m => rfl

/-! In a well-formed tree whose root holds a key, `MaxValue` is the key of a leaf
entry and bounds the key of every leaf entry. -/
mutual
theorem maxValue_spec : ∀ t : Node, WellFormed t → IsEmpty t = false →
    (∃ e ∈ entries t, e.1 = MaxValue t) ∧ (∀ e ∈ entries t, e.1 ≤ MaxValue t)
  | .leaf keys refs => by
    intro hw hne
    simp only [WellFormed] at hw
    have hl := maxValue_eq_getLast _ hne
    simp only [keysOf] at hl
    have hfst : (keys.zip refs).map Prod.fst = keys := List.map_fst_zip _ _ (le_of_eq hw.1)
    constructor
    · have hm : MaxValue (.leaf keys refs) ∈ (keys.zip refs).map Prod.fst := by
        rw [hfst]; exact List.mem_of_getLast?_eq_some hl
      obtain ⟨e, he, h1⟩ := List.mem_map.1 hm
      exact ⟨e, by simpa [entries] using he, h1⟩
    · intro e he
      have : e.1 ∈ keys := by
        rw [← hfst]; exact List.mem_map.2 ⟨e, by simpa [entries] using he, rfl⟩
      exact sorted_le_getLast keys hw.2 _ hl e.1 this
  | .node keys cs => by
    intro hw hne
    simp only [WellFormed] at hw
    have hl := maxValue_eq_getLast _ hne
    simp only [keysOf] at hl
    obtain ⟨h1, h2⟩ := maxValueAll_spec cs keys hw.2
    constructor
    · obtain ⟨e, he, h⟩ := h2 _ (List.mem_of_getLast?_eq_some hl)
      exact ⟨e, by simpa [entries] using he, h⟩
    · intro e he
      obtain ⟨k, hk, h⟩ := h1 e (by simpa [entries] using he)
      exact le_trans h (sorted_le_getLast keys hw.1 _ hl k hk)
theorem maxValueAll_spec : ∀ (cs : List Node) (keys : List Int), WellFormedAll keys cs →
    (∀ e ∈ entriesAll cs, ∃ k ∈ keys, e.1 ≤ k) ∧ (∀ k ∈ keys, ∃ e ∈ entriesAll cs, e.1 = k)
  | [], [] => by intro _; simp [entriesAll]
  | [], _ :: _ => by intro h; simp [WellFormedAll] at h
  | _ :: _, [] => by intro h; simp [WellFormedAll] at h
  | c :: cs, k :: ks => by
    intro h
    simp only [WellFormedAll] at h
    obtain ⟨hc, hne, hk, hrest⟩ := h
    obtain ⟨a1, a2⟩ := maxValue_spec c hc hne
    obtain ⟨b1, b2⟩ := maxValueAll_spec cs ks hrest
    constructor
    · intro e he
      simp only [entriesAll, List.mem_append] at he
      rcases he with he | he
      · exact ⟨k, List.mem_cons_self _ _, hk ▸ a2 e he⟩
      · obtain ⟨k1, hk1, h⟩ := b1 e he
        exact ⟨k1, List.mem_cons_of_mem _ hk1, h⟩
    · intro k1 hk1
      simp only [entriesAll]
      rcases List.mem_cons.1 hk1 with h | h
      · obtain ⟨e, he, h3⟩ := a1
        exact ⟨e, List.mem_append_left _ he, by rw [h3, h, hk]⟩
      · obtain ⟨e, he, h3⟩ := b2 k1 h
        exact ⟨e, List.mem_append_right _ he, h3⟩
end

/-- Claim C17: for every well-formed tree whose root holds at least one key,
`MaxValue` of the root is the key of some leaf entry of the tree and no leaf
entry has a larger key; and for every node without keys `MaxValue` is 0. -/
theorem C17_maxValue_is_largest_key (t : Node) (hw : WellFormed t) (hne : IsEmpty t = false) :
    (∃ e ∈ entries t, e.1 = MaxValue t) ∧ (∀ e ∈ entries t, e.1 ≤ MaxValue t) ∧
      ∀ n : Node, keysOf n = [] → MaxValue n = 0 := by
  obtain ⟨h1, h2⟩ := maxValue_spec t hw hne
  refine ⟨h1, h2, ?_⟩
  intro n hn
  simp [MaxValue, hn]

/-- Claim C17 at a two-level tree with the leaf keys 3, 5 and 9. -/
theorem C17_maxValue_is_largest_key_witness :
    WellFormed (.node [5, 9] [.leaf [3, 5] [4, 0], .leaf [9] [1]]) ∧
      IsEmpty (.node [5, 9] [.leaf [3, 5] [4, 0], .leaf [9] [1]]) = false ∧
      (∃ e ∈ entries (.node [5, 9] [.leaf [3, 5] [4, 0], .leaf [9] [1]]),
        e.1 = MaxValue (.node [5, 9] [.leaf [3, 5] [4, 0], .leaf [9] [1]])) ∧
      (∀ e ∈ entries (.node [5, 9] [.leaf [3, 5] [4, 0], .leaf [9] [1]]),
        e.1 ≤ MaxValue (.node [5, 9] [.leaf [3, 5] [4, 0], .leaf [9] [1]])) ∧
      ∀ n : Node, keysOf n = [] → MaxValue n = 0 :=
  have hw : WellFormed (.node [5, 9] [.leaf [3, 5] [4, 0], .leaf [9] [1]]) := by
    simp [WellFormed, WellFormedAll, IsEmpty, keysOf, MaxValue]
  ⟨hw, rfl, C17_maxValue_is_largest_key _ hw rfl⟩

/-! ## Theorems: the comparison of rows in `DoDelete` -/

/-- A row position below `2 ^ 31` is its own `int`. -/
theorem toInt32_small (n : Nat) (h : n < 2 ^ 31) : toInt32 n = n := by
  unfold toInt32
  omega

/-- The scan of a leaf reports nothing when no ref from the start position on is
the row looked for. -/
theorem leafScan_none (ndx : Nat) : ∀ (rs : List Int) (pos : Nat), rs ≠ [] →
    (∀ x ∈ rs, x ≠ toInt32 ndx) → leafScan ndx rs pos = .ok Option.none := by
  intro rs
  induction rs with
  | nil => intro pos h; exact absurd rfl h
  | cons r rs ih =>
    intro pos _ hx
    have hr : r ≠ toInt32 ndx := hx r (List.mem_cons_self _ _)
    cases rs with
    | nil => simp [leafScan, hr]
    | cons r2 rs2 =>
      simp only [leafScan, hr, if_false]
      exact ih (pos + 1) (by simp) (fun x h => hx x (List.mem_cons_of_mem _ h))

/-- The scan of a leaf reports the first position, from the start position on,
whose ref is the row looked for. -/
theorem leafScan_some (ndx : Nat) : ∀ (rs : List Int) (pos j : Nat),
    rs[j]? = some (toInt32 ndx) → (∀ i, i < j → rs[i]? ≠ some (toInt32 ndx)) →
    leafScan ndx rs pos = .ok (some (pos + j)) := by
  intro rs
  induction rs with
  | nil =>
    intro pos j h
    rw [List.getElem?_nil] at h
    cases h
  | cons r rs ih =>
    intro pos j hj hfirst
    cases j with
    | zero =>
      rw [List.getElem?_cons_zero] at hj
      have e : r = toInt32 ndx := Option.some.inj hj
      simp only [leafScan, e, if_true, Nat.add_zero]
    | succ j =>
      have hr : r ≠ toInt32 ndx := by
        intro h
        have h0 := hfirst 0 (Nat.succ_pos j)
        rw [List.getElem?_cons_zero] at h0
        exact h0 (congrArg some h)
      have hj1 : rs[j]? = some (toInt32 ndx) := by
        rw [List.getElem?_cons_succ] at hj
        exact hj
      have hf1 : ∀ i, i < j → rs[i]? ≠ some (toInt32 ndx) := by
        intro i hi
        have h1 := hfirst (i + 1) (Nat.succ_lt_succ hi)
        rw [List.getElem?_cons_succ] at h1
        exact h1
      cases rs with
      | nil =>
        rw [List.getElem?_nil] at hj1
        cases hj1
      | cons r2 rs2 =>
        have step : leafScan ndx (r :: r2 :: rs2) pos = leafScan ndx (r2 :: rs2) (pos + 1) := by
          conv_lhs => unfold leafScan
          simp only [hr, if_false]
        rw [step, ih (pos + 1) j hj1 hf1, Nat.add_assoc, Nat.add_comm 1 j]

/-- `DoDelete` on a leaf removes the first entry, at or after the position found
for the value, whose stored row position is `(int)ndx`, whatever its key. -/
theorem doDelete_leaf_found (keys refs : List Int) (ndx : Nat) (value : Int) (p q : Nat)
    (hl : keys.length = refs.length) (hp : FindPos2 keys value = some p) (hpq : p ≤ q)
    (hq : refs[q]? = some (toInt32 ndx))
    (hfirst : ∀ j, p ≤ j → j < q → refs[j]? ≠ some (toInt32 ndx)) :
    DoDelete (.leaf keys refs) ndx value
      = .ok (true, .leaf (keys.eraseIdx q) (refs.eraseIdx q)) := by
  have hq1 : q < refs.length := (List.getElem?_eq_some_iff.1 hq).1
  have hs : leafScan ndx (refs.drop p) p = .ok (some (p + (q - p))) := by
    apply leafScan_some
    · rw [List.getElem?_drop]
      rw [show p + (q - p) = q by omega]
      exact hq
    · intro i hi
      rw [List.getElem?_drop]
      exact hfirst (p + i) (by omega) (by omega)
  rw [show p + (q - p) = q by omega] at hs
  simp [DoDelete, hp, hs, hl, hq1]

/-- `DoDelete` on a leaf returns `false` and leaves the leaf as it is when no
entry at or after the position found for the value has the stored row position
`(int)ndx`. -/
theorem doDelete_leaf_missing (keys refs : List Int) (ndx : Nat) (value : Int) (p : Nat)
    (hl : keys.length = refs.length) (hp : FindPos2 keys value = some p)
    (hno : ∀ j, p ≤ j → refs[j]? ≠ some (toInt32 ndx)) :
    DoDelete (.leaf keys refs) ndx value = .ok (false, .leaf keys refs) := by
  have hp1 : p < refs.length := hl ▸ findPos2_lt value keys p hp
  have hs : leafScan ndx (refs.drop p) p = .ok Option.none := by
    apply leafScan_none
    · intro h
      have := congrArg List.length h
      simp at this
      omega
    · intro x hx h
      obtain ⟨i, hi, e⟩ := List.getElem_of_mem hx
      have h1 : (refs.drop p)[i]? = some x := by
        rw [List.getElem?_eq_some_iff]; exact ⟨hi, e⟩
      rw [List.getElem?_drop] at h1
      exact hno (p + i) (by omega) (h ▸ h1)
  simp [DoDelete, hp, hs]

/-- `Delete` on a leaf root that finds no entry to remove keeps every entry and
every key and still lowers by one every stored row position that is not below
`ndx`. -/
theorem delete_leaf_missing (keys refs : List Int) (ndx : Nat) (value : Int) (p : Nat)
    (hl : keys.length = refs.length) (hp : FindPos2 keys value = some p)
    (hno : ∀ j, p ≤ j → refs[j]? ≠ some (toInt32 ndx)) :
    Delete (.leaf keys refs) ndx value
      = .ok (.leaf keys (refs.map fun r => if toInt64 ndx ≤ r then r + (-1) else r)) := by
  simp [Delete, doDelete_leaf_missing keys refs ndx value p hl hp hno, collapse, UpdateRefs,
    IncrementIf]

/-- Claim C19, evaluated where it fails: in the leaf `[(7, 2147483648)]` the
entry at position 0 has the stored row position `2147483648`, and
`FindPos2(7)` finds position 0.  `DoDelete(2147483648, 7)` returns `false` and
leaves the leaf unchanged: line 97 compares the stored row with `(int)ndx`,
which is `-2147483648`.  (With a row below `2 ^ 31` the scan does match on the
row alone: on keys `[10, 20]`, refs `[0, 1]`, `DoDelete(1, 10)` removes `(20, 1)`.) -/
theorem C19_row_beyond_int_is_missed :
    FindPos2 [7] 7 = some 0 ∧ toInt32 2147483648 = -2147483648 ∧
      DoDelete (.leaf [7] [2147483648]) 2147483648 7
        = .ok (false, .leaf [7] [2147483648]) ∧
      DoDelete (.leaf [10, 20] [0, 1]) 1 10 = .ok (true, .leaf [10] [0]) :=
  ⟨rfl, rfl, rfl, rfl⟩

/-- Claim C20, evaluated where it fails: the leaf-root index `[(7, 5)]` holds no
entry with the row position `4294967301`, and 7 is not above its largest key.
`Delete(4294967301, 7)` removes the entry `(7, 5)`: line 97 compares the stored
row 5 with `(int)ndx`, which is 5. -/
theorem C20_delete_of_absent_row_removes_entry :
    rowsOf (.leaf [7] [5]) 7 = [5] ∧ toInt32 4294967301 = 5 ∧
      Delete (.leaf [7] [5]) 4294967301 7 = .ok (.leaf [] []) :=
  ⟨rfl, rfl, rfl⟩

/-! ## Theorems: node capacity -/

/-- The capacity invariant of a list of children, child by child. -/
theorem capAll_iff : ∀ cs : List Node, capAll cs ↔ ∀ c ∈ cs, capOK c ∧ IsEmpty c = false := by
  intro cs
  induction cs with
  | nil => simp [capAll]
  | cons c cs ih =>
    simp only [capAll, ih, List.mem_cons, forall_eq_or_imp]
    constructor
    · rintro ⟨h1, h2, h3⟩; exact ⟨⟨h1, h2⟩, h3⟩
    · rintro ⟨⟨h1, h2⟩, h3⟩; exact ⟨h1, h2, h3⟩

/-- `Insert` makes an array one longer. -/
theorem insert_length {α : Type} (xs : List α) (i : Nat) (a : α) :
    (Insert xs i a).length = xs.length + 1 := by
  simp [Insert]; omega

/-- The members of an array after `Insert`. -/
theorem mem_insert {α : Type} (xs : List α) (i : Nat) (a b : α) (h : b ∈ Insert xs i a) :
    b = a ∨ b ∈ xs := by
  simp only [Insert, List.mem_append, List.mem_cons] at h
  rcases h with h | h | h
  · exact Or.inr (List.mem_of_mem_take h)
  · exact Or.inl h
  · exact Or.inr (List.mem_of_mem_drop h)

/-- A node with a key is not empty. -/
theorem isEmpty_of_pos (n : Node) (h : 0 < Size n) : IsEmpty n = false := by
  unfold IsEmpty
  unfold Size at h
  cases hk : keysOf n with
  | nil => rw [hk] at h; simp at h
  | cons _ _ => rfl

/-- A node that is not empty has a key. -/
theorem pos_of_isEmpty (n : Node) (h : IsEmpty n = false) : 0 < Size n := by
  unfold IsEmpty at h
  unfold Size
  cases hk : keysOf n with
  | nil => rw [hk] at h; simp at h
  | cons _ _ => simp

/-- When `NodeAdd` returns, the node has one more key and one more child, and
its children are the old ones and the new one. -/
theorem nodeAdd_ok (ks : List Int) (cs : List Node) (ref : Node) (b : Bool) (n : Node)
    (h : NodeAdd (.node ks cs) ref = .ok (b, n)) :
    ∃ ks1 cs1, n = .node ks1 cs1 ∧ ks1.length = ks.length + 1 ∧ cs1.length = cs.length + 1 ∧
      ∀ c ∈ cs1, c = ref ∨ c ∈ cs := by
  simp only [NodeAdd] at h
  split at h
  · simp at h
  · split at h
    · simp only [Except.ok.injEq, Prod.mk.injEq] at h
      refine ⟨_, _, h.2.symm, by simp [Add], by simp [Add], ?_⟩
      intro c hc
      simp only [Add, List.mem_append, List.mem_singleton] at hc
      exact hc.symm
    · simp only [Except.ok.injEq, Prod.mk.injEq] at h
      exact ⟨_, _, h.2.symm, insert_length _ _ _, insert_length _ _ _,
        fun c hc => mem_insert _ _ _ _ hc⟩

/-- `NodeAdd` of a child that holds a key returns. -/
theorem nodeAdd_returns (ks : List Int) (cs : List Node) (ref : Node)
    (h : IsEmpty ref = false) : ∃ b n, NodeAdd (.node ks cs) ref = .ok (b, n) := by
  simp only [NodeAdd, h]
  cases FindPos2 ks (MaxValue ref) with
  | none => exact ⟨_, _, rfl⟩
  | some p => exact ⟨_, _, rfl⟩

/-- When `NodeAddAll` returns, the node has as many more keys and children as
were added, and its children are the old ones and the added ones. -/
theorem nodeAddAll_ok : ∀ (xs : List Node) (ks : List Int) (cs : List Node) (n : Node),
    NodeAddAll (.node ks cs) xs = .ok n →
    ∃ ks1 cs1, n = .node ks1 cs1 ∧ ks1.length = ks.length + xs.length ∧
      cs1.length = cs.length + xs.length ∧ ∀ c ∈ cs1, c ∈ xs ∨ c ∈ cs := by
  intro xs
  induction xs with
  | nil =>
    intro ks cs n h
    simp only [NodeAddAll, Except.ok.injEq] at h
    exact ⟨ks, cs, h.symm, rfl, rfl, fun c hc => Or.inr hc⟩
  | cons x xs ih =>
    intro ks cs n h
    simp only [NodeAddAll] at h
    split at h
    · simp at h
    · rename_i b n1 hn1
      obtain ⟨ks1, cs1, e1, l1, l2, m1⟩ := nodeAdd_ok ks cs x b n1 hn1
      subst e1
      obtain ⟨ks2, cs2, e2, l3, l4, m2⟩ := ih ks1 cs1 n h
      refine ⟨ks2, cs2, e2, by simp only [List.length_cons]; omega,
        by simp only [List.length_cons]; omega, ?_⟩
      intro c hc
      rcases m2 c hc with h1 | h1
      · exact Or.inl (List.mem_cons_of_mem _ h1)
      · rcases m1 c h1 with h2 | h2
        · exact Or.inl (h2 ▸ List.mem_cons_self _ _)
        · exact Or.inr h2

/-- `NodeAddAll` of children that hold a key each returns. -/
theorem nodeAddAll_returns : ∀ (xs : List Node) (ks : List Int) (cs : List Node),
    (∀ c ∈ xs, IsEmpty c = false) → ∃ n, NodeAddAll (.node ks cs) xs = .ok n := by
  intro xs
  induction xs with
  | nil => intro ks cs _; exact ⟨_, rfl⟩
  | cons x xs ih =>
    intro ks cs h
    obtain ⟨b, n1, e1⟩ := nodeAdd_returns ks cs x (h x (List.mem_cons_self _ _))
    obtain ⟨ks1, cs1, rfl, _⟩ := nodeAdd_ok ks cs x b n1 e1
    obtain ⟨n, e2⟩ := ih ks1 cs1 (fun c hc => h c (List.mem_cons_of_mem _ hc))
    exact ⟨n, by simp only [NodeAddAll, e1]; exact e2⟩

/-- The capacity invariant of an internal node from its parts. -/
theorem capOK_node_intro (ks : List Int) (cs : List Node) (h1 : ks.length = cs.length)
    (h2 : ks.length ≤ MAX_LIST_SIZE) (h3 : 0 < cs.length)
    (h4 : ∀ c ∈ cs, capOK c ∧ IsEmpty c = false) :
    capOK (.node ks cs) ∧ IsEmpty (.node ks cs) = false := by
  refine ⟨?_, isEmpty_of_pos _ (by simp only [Size, keysOf]; omega)⟩
  simp only [capOK]
  exact ⟨h1, h2, h3, (capAll_iff cs).2 h4⟩

/-- Linking the node reported by a child keeps the capacity invariant, for the
node and for what it reports, and reports "none" or a signal. -/
theorem doInsertLink_cap (offsets : List Int) (refs : List Node) (node_ndx : Nat)
    (ref1 : Node) (ref2 : Option Node) (self : Node) (nc : NodeChange)
    (hl : offsets.length = refs.length) (hm : offsets.length ≤ MAX_LIST_SIZE)
    (hpos : 0 < refs.length) (hc : ∀ c ∈ refs, capOK c ∧ IsEmpty c = false)
    (h1 : capOK ref1 ∧ IsEmpty ref1 = false)
    (h2 : ∀ r, ref2 = some r → capOK r ∧ IsEmpty r = false)
    (h : DoInsertLink offsets refs node_ndx ref1 ref2 = .ok (self, nc)) :
    capOK self ∧ IsEmpty self = false ∧ nc.capOK ∧
      (nc.isSignal = true ∨ nc.isNone = true) := by
  have hM : MAX_LIST_SIZE = 1000 := rfl
  unfold DoInsertLink at h
  split at h
  · rename_i hlt
    cases ref2 with
    | some r2 =>
      cases hg : Get refs node_ndx with
      | error e => simp [NodeInsertSplit, hg] at h
      | ok child =>
        simp only [NodeInsertSplit, hg, Except.ok.injEq, Prod.mk.injEq] at h
        obtain ⟨rfl, rfl⟩ := h
        have hn := capOK_node_intro
          (Insert (offsets.set node_ndx (MaxValue child)) (node_ndx + 1) (MaxValue r2))
          (Insert refs (node_ndx + 1) r2)
          (by simp [insert_length, hl]) (by simp [insert_length]; omega)
          (by simp [insert_length])
          (by
            intro c hcm
            rcases mem_insert _ _ _ _ hcm with h3 | h3
            · exact h3 ▸ h2 r2 rfl
            · exact hc c h3)
        exact ⟨hn.1, hn.2, by simp [NodeChange.ofBool, NodeChange.capOK],
          Or.inr (by simp [NodeChange.ofBool, NodeChange.isNone])⟩
    | none =>
      simp only [NodeInsert, Except.ok.injEq, Prod.mk.injEq] at h
      obtain ⟨rfl, rfl⟩ := h
      have hn := capOK_node_intro (Insert offsets node_ndx (MaxValue ref1))
        (Insert refs node_ndx ref1)
        (by simp [insert_length, hl]) (by simp [insert_length]; omega)
        (by simp [insert_length])
        (by
          intro c hcm
          rcases mem_insert _ _ _ _ hcm with h3 | h3
          · exact h3 ▸ h1
          · exact hc c h3)
      exact ⟨hn.1, hn.2, by simp [NodeChange.ofBool, NodeChange.capOK],
        Or.inr (by simp [NodeChange.ofBool, NodeChange.isNone])⟩
  · rename_i hge
    have hfull : offsets.length = 1000 := by omega
    cases hn : NodeAdd emptyNode ref1 with
    | error e => simp [hn] at h
    | ok p =>
      obtain ⟨b, newNode⟩ := p
      simp only [hn] at h
      obtain ⟨ks1, cs1, e1, l1, l2, m1⟩ := nodeAdd_ok [] [] ref1 b newNode hn
      subst e1
      have hnew := capOK_node_intro ks1 cs1 (by rw [l1, l2]; rfl) (by rw [l1]; simp [hM])
        (by rw [l2]; simp)
        (by
          intro c hcm
          rcases m1 c hcm with h3 | h3
          · exact h3 ▸ h1
          · simp at h3)
      have hself := capOK_node_intro offsets refs hl hm hpos hc
      split at h
      · simp only [Except.ok.injEq, Prod.mk.injEq] at h
        obtain ⟨rfl, rfl⟩ := h
        exact ⟨hself.1, hself.2, hnew, Or.inl rfl⟩
      · rename_i hn0
        split at h
        · simp only [Except.ok.injEq, Prod.mk.injEq] at h
          obtain ⟨rfl, rfl⟩ := h
          exact ⟨hself.1, hself.2, hnew, Or.inl rfl⟩
        · cases hn1 : NodeAddAll (Node.node ks1 cs1) (List.drop node_ndx refs) with
          | error e => simp [hn1] at h
          | ok newNode1 =>
            simp only [hn1, Except.ok.injEq, Prod.mk.injEq] at h
            obtain ⟨rfl, rfl⟩ := h
            obtain ⟨ks2, cs2, e2, l3, l4, m2⟩ := nodeAddAll_ok _ _ _ _ hn1
            subst e2
            have hcut := capOK_node_intro (offsets.take node_ndx) (refs.take node_ndx)
              (by simp [hl]) (by simp; omega) (by simp; omega)
              (fun c hc1 => hc c (List.mem_of_mem_take hc1))
            have hnew1 := capOK_node_intro ks2 cs2 (by rw [l3, l4, l1, l2]; rfl)
              (by rw [l3, l1]; simp; omega) (by rw [l4]; omega)
              (by
                intro c hc1
                rcases m2 c hc1 with h3 | h3
                · exact hc c (List.mem_of_mem_drop h3)
                · rcases m1 c h3 with h4 | h4
                  · exact h4 ▸ h1
                  · simp at h4)
            exact ⟨hcut.1, hcut.2, ⟨hcut.1, hcut.2, hnew1.1, hnew1.2⟩, Or.inl rfl⟩

/-- Linking the node reported by a child returns, when the nodes to link hold a
key each and a split child is in its slot. -/
theorem doInsertLink_returns (offsets : List Int) (refs : List Node) (node_ndx : Nat)
    (ref1 : Node) (ref2 : Option Node)
    (hc : ∀ c ∈ refs, IsEmpty c = false) (h1 : IsEmpty ref1 = false)
    (h2 : ∀ r, ref2 = some r → node_ndx < refs.length) :
    ∃ res, DoInsertLink offsets refs node_ndx ref1 ref2 = .ok res := by
  unfold DoInsertLink
  split
  · cases ref2 with
    | some r2 =>
      have hlt := h2 r2 rfl
      have hg : Get refs node_ndx = .ok (refs[node_ndx]) := by
        simp [Get, List.getElem?_eq_getElem hlt]
      simp only [NodeInsertSplit, hg]
      exact ⟨_, rfl⟩
    | none =>
      simp only [NodeInsert]
      exact ⟨_, rfl⟩
  · obtain ⟨b, newNode, hn⟩ := nodeAdd_returns [] [] ref1 h1
    have hn' : NodeAdd emptyNode ref1 = .ok (b, newNode) := hn
    simp only [hn']
    split
    · exact ⟨_, rfl⟩
    · split
      · exact ⟨_, rfl⟩
      · obtain ⟨ks1, cs1, rfl, _⟩ := nodeAdd_ok [] [] ref1 b newNode hn
        obtain ⟨n, e⟩ := nodeAddAll_returns (refs.drop node_ndx) ks1 cs1
          (fun c hcm => hc c (List.mem_of_mem_drop hcm))
        simp only [e]
        exact ⟨_, rfl⟩

/-- `LeafInsert` into a new list makes the leaf of the one entry. -/
theorem leafInsert_empty (ndx : Nat) (v : Int) :
    LeafInsert empty ndx v = .ok (true, .leaf [v] [toInt64 ndx]) := rfl

/-- The leaf that line 273 leaves behind keeps its keys when `ndx` is not 0, and
keeps its refs or has none. -/
theorem resizeSlots_spec (ndx : Nat) (values refs : List Int) (h0 : ndx ≠ 0) :
    ∃ refs1, ResizeSlots ndx values refs = .leaf values refs1 ∧
      (refs1 = refs ∨ refs1.length = 0) := by
  unfold ResizeSlots
  rw [if_neg h0]
  by_cases h1 : ndx = 1
  · rw [if_pos h1]; exact ⟨[], rfl, Or.inr rfl⟩
  · rw [if_neg h1]; exact ⟨refs, rfl, Or.inl rfl⟩

/-! `DoInsert` keeps the capacity invariant, for the node and for the nodes it
reports to the caller; the node it leaves holds a key, and it reports "none" or
a signal. -/
mutual
theorem doInsert_cap : ∀ (t : Node) (ndx : Nat) (v : Int) (self : Node) (nc : NodeChange),
    capOK t → DoInsert t ndx v = .ok (self, nc) →
    capOK self ∧ IsEmpty self = false ∧ nc.capOK ∧ (nc.isSignal = true ∨ nc.isNone = true)
  | .leaf keys refs, ndx, v, self, nc => by
    intro hc h
    simp only [capOK] at hc
    have hM : MAX_LIST_SIZE = 1000 := rfl
    have hnew : capOK (.leaf [v] [toInt64 ndx]) ∧ IsEmpty (.leaf [v] [toInt64 ndx]) = false :=
      ⟨by simp [capOK, MAX_LIST_SIZE], rfl⟩
    simp only [DoInsert, leafInsert_leaf, leafInsert_empty, Size, keysOf] at h
    split at h
    · rename_i hlt
      simp only [Except.ok.injEq, Prod.mk.injEq] at h
      obtain ⟨rfl, rfl⟩ := h
      refine ⟨?_, isEmpty_of_pos _ (by simp [Size, keysOf, placeAt_length]),
        by simp [NodeChange.ofBool, NodeChange.capOK],
        Or.inr (by simp [NodeChange.ofBool, NodeChange.isNone])⟩
      simp only [capOK, placeAt_length]
      omega
    · rename_i hge
      have hfull : keys.length = MAX_LIST_SIZE := by omega
      have hself : capOK (.leaf keys refs) ∧ IsEmpty (.leaf keys refs) = false :=
        ⟨by simpa [capOK] using hc, isEmpty_of_pos _ (by simp only [Size, keysOf]; omega)⟩
      split at h
      · simp only [Except.ok.injEq, Prod.mk.injEq] at h
        obtain ⟨rfl, rfl⟩ := h
        exact ⟨hself.1, hself.2, hnew, Or.inl rfl⟩
      · rename_i h0
        split at h
        · simp only [Except.ok.injEq, Prod.mk.injEq] at h
          obtain ⟨rfl, rfl⟩ := h
          exact ⟨hself.1, hself.2, hnew, Or.inl rfl⟩
        · simp only [Except.ok.injEq, Prod.mk.injEq] at h
          obtain ⟨rfl, rfl⟩ := h
          obtain ⟨refs1, e, hle⟩ := resizeSlots_spec ndx keys refs h0
          rw [e]
          have hcut : capOK (.leaf keys refs1) ∧ IsEmpty (.leaf keys refs1) = false :=
            ⟨by
              simp only [capOK]
              rcases hle with e1 | e1
              · rw [e1]; exact hc
              · exact ⟨hc.1, Or.inr ⟨hfull, e1⟩⟩,
              isEmpty_of_pos _ (by simp only [Size, keysOf]; omega)⟩
          exact ⟨hcut.1, hcut.2, ⟨hcut.1, hcut.2, hnew.1, hnew.2⟩, Or.inl rfl⟩
  | .node offsets refs, ndx, v, self, nc => by
    intro hc h
    simp only [capOK] at hc
    obtain ⟨hl, hm, hpos, hall⟩ := hc
    simp only [DoInsert] at h
    generalize (match FindPos2 offsets (toInt64 ndx) with
      | some p => p
      | Option.none => subSizeT offsets.length 1) = node_ndx at h
    split at h
    · simp at h
    · rename_i prev _
      generalize subSizeT ndx (if node_ndx = 0 then 0 else toSizeT prev) = local_ndx at h
      cases hd : DoInsertAt refs node_ndx local_ndx v with
      | error e => simp [hd] at h
      | ok res =>
        obtain ⟨refs1, nc1⟩ := res
        obtain ⟨a1, a2, a3, _⟩ := doInsertAt_cap refs node_ndx local_ndx v refs1 nc1 hall hd
        simp only [hd] at h
        have hall1 := (capAll_iff refs1).1 a1
        have hl1 : offsets.length = refs1.length := by rw [a2, hl]
        have hpos1 : 0 < refs1.length := by rw [a2]; exact hpos
        cases nc1 with
        | error =>
          simp only [Except.ok.injEq, Prod.mk.injEq] at h
          obtain ⟨rfl, rfl⟩ := h
          rename_i hx
          simp [NodeChange.isSignal, NodeChange.isNone] at hx
        | none =>
          simp only [Except.ok.injEq, Prod.mk.injEq] at h
          obtain ⟨rfl, rfl⟩ := h
          have hi : (Increment offsets 1 node_ndx).length = offsets.length := by
            simp [Increment]; omega
          have hn := capOK_node_intro (Increment offsets 1 node_ndx) refs1 (by rw [hi, hl1])
            (by rw [hi]; exact hm) hpos1 hall1
          exact ⟨hn.1, hn.2, trivial, Or.inr rfl⟩
        | insertBefore r =>
          exact doInsertLink_cap offsets refs1 node_ndx r Option.none self nc hl1 hm hpos1 hall1
            a3 (by intro r0 hr; cases hr) h
        | insertAfter r =>
          exact doInsertLink_cap offsets refs1 (node_ndx + 1) r Option.none self nc hl1 hm hpos1
            hall1 a3 (by intro r0 hr; cases hr) h
        | split r1 r2 =>
          exact doInsertLink_cap offsets refs1 node_ndx r1 (some r2) self nc hl1 hm hpos1 hall1
            ⟨a3.1, a3.2.1⟩ (by intro r0 hr; cases hr; exact ⟨a3.2.2.1, a3.2.2.2⟩) h
theorem doInsertAt_cap : ∀ (cs : List Node) (i ndx : Nat) (v : Int) (cs1 : List Node)
    (nc : NodeChange), capAll cs → DoInsertAt cs i ndx v = .ok (cs1, nc) →
    capAll cs1 ∧ cs1.length = cs.length ∧ nc.capOK ∧ (nc.isSignal = true ∨ nc.isNone = true)
  | [], i, ndx, v, cs1, nc => by
    intro _ h
    simp [DoInsertAt] at h
  | c :: cs, 0, ndx, v, cs1, nc => by
    intro hc h
    simp only [capAll] at hc
    simp only [DoInsertAt] at h
    split at h
    · simp at h
    · rename_i c1 nc1 hd
      simp only [Except.ok.injEq, Prod.mk.injEq] at h
      obtain ⟨rfl, rfl⟩ := h
      obtain ⟨a1, a2, a3, a4⟩ := doInsert_cap c ndx v c1 nc1 hc.1 hd
      exact ⟨by simp only [capAll]; exact ⟨a1, a2, hc.2.2⟩, by simp, a3, a4⟩
  | c :: cs, i + 1, ndx, v, cs1, nc => by
    intro hc h
    simp only [capAll] at hc
    simp only [DoInsertAt] at h
    split at h
    · simp at h
    · rename_i cs2 nc1 hd
      simp only [Except.ok.injEq, Prod.mk.injEq] at h
      obtain ⟨rfl, rfl⟩ := h
      obtain ⟨a1, a2, a3, a4⟩ := doInsertAt_cap cs i ndx v cs2 nc1 hc.2.2 hd
      exact ⟨by simp only [capAll]; exact ⟨hc.1, hc.2.1, a1⟩, by simp [a2], a3, a4⟩
end

/-- On lists of at most `MAX_LIST_SIZE` elements `offsets.Size()-1` is the last
position. -/
theorem subSizeT_one (n : Nat) (h0 : 0 < n) (h : n ≤ MAX_LIST_SIZE) : subSizeT n 1 = n - 1 := by
  have hM : MAX_LIST_SIZE = 1000 := rfl
  unfold subSizeT
  omega

/-! `DoInsert` returns on every tree with the capacity invariant. -/
mutual
theorem doInsert_returns : ∀ (t : Node) (ndx : Nat) (v : Int), capOK t →
    ∃ res, DoInsert t ndx v = .ok res
  | .leaf keys refs, ndx, v => by
    intro _
    simp only [DoInsert, leafInsert_leaf, leafInsert_empty]
    split
    · exact ⟨_, rfl⟩
    · split
      · exact ⟨_, rfl⟩
      · split
        · exact ⟨_, rfl⟩
        · exact ⟨_, rfl⟩
  | .node offsets refs, ndx, v => by
    intro hc
    simp only [capOK] at hc
    obtain ⟨hl, hm, hpos, hall⟩ := hc
    have hnd : (match FindPos2 offsets (toInt64 ndx) with
      | some p => p
      | Option.none => subSizeT offsets.length 1) < offsets.length := by
      cases hf : FindPos2 offsets (toInt64 ndx) with
      | some p => exact findPos2_lt _ _ _ hf
      | none =>
        show subSizeT offsets.length 1 < offsets.length
        rw [subSizeT_one _ (by omega) hm]; omega
    simp only [DoInsert]
    generalize (match FindPos2 offsets (toInt64 ndx) with
      | some p => p
      | Option.none => subSizeT offsets.length 1) = node_ndx at hnd ⊢
    obtain ⟨prev, hp⟩ : ∃ prev, (if node_ndx = 0 then (Except.ok 0 : Except Fault Int)
        else Get offsets (node_ndx - 1)) = .ok prev := by
      by_cases h0 : node_ndx = 0
      · exact ⟨0, by rw [if_pos h0]⟩
      · rw [if_neg h0]
        have hlt : node_ndx - 1 < offsets.length := by omega
        exact ⟨offsets[node_ndx - 1], by simp [Get, List.getElem?_eq_getElem hlt]⟩
    split
    · rename_i e he
      rw [hp] at he
      cases he
    · rename_i prev1 _
      generalize subSizeT ndx (if node_ndx = 0 then 0 else toSizeT prev1) = local_ndx
      obtain ⟨⟨refs1, nc1⟩, hd⟩ := doInsertAt_returns refs node_ndx local_ndx v hall (by omega)
      obtain ⟨a1, a2, a3, a4⟩ := doInsertAt_cap refs node_ndx local_ndx v refs1 nc1 hall hd
      have hall1 := (capAll_iff refs1).1 a1
      simp only [hd]
      cases nc1 with
      | error => exact ⟨_, rfl⟩
      | none => exact ⟨_, rfl⟩
      | insertBefore r =>
        exact doInsertLink_returns offsets refs1 node_ndx r Option.none
          (fun c hc => (hall1 c hc).2) a3.2 (by intro r0 hr; cases hr)
      | insertAfter r =>
        exact doInsertLink_returns offsets refs1 (node_ndx + 1) r Option.none
          (fun c hc => (hall1 c hc).2) a3.2 (by intro r0 hr; cases hr)
      | split r1 r2 =>
        exact doInsertLink_returns offsets refs1 node_ndx r1 (some r2)
          (fun c hc => (hall1 c hc).2) a3.2.1 (by intro r0 _; rw [a2]; omega)
theorem doInsertAt_returns : ∀ (cs : List Node) (i ndx : Nat) (v : Int), capAll cs →
    i < cs.length → ∃ res, DoInsertAt cs i ndx v = .ok res
  | [], i, ndx, v => by
    intro _ h
    simp at h
  | c :: cs, 0, ndx, v => by
    intro hc _
    simp only [capAll] at hc
    obtain ⟨⟨c1, nc1⟩, hd⟩ := doInsert_returns c ndx v hc.1
    simp only [DoInsertAt, hd]
    exact ⟨_, rfl⟩
  | c :: cs, i + 1, ndx, v => by
    intro hc hi
    simp only [capAll] at hc
    obtain ⟨⟨cs1, nc1⟩, hd⟩ := doInsertAt_returns cs i ndx v hc.2.2
      (by simp only [List.length_cons] at hi; omega)
    simp only [DoInsertAt, hd]
    exact ⟨_, rfl⟩
end

/-- Every key before the position found by `FindPos2` is below the value. -/
theorem findPos2_take_lt (v : Int) : ∀ (keys : List Int) (p : Nat), FindPos2 keys v = some p →
    ∀ k ∈ keys.take p, k < v := by
  intro keys
  induction keys with
  | nil => intro p h; simp [FindPos2] at h
  | cons k ks ih =>
    intro p h
    by_cases hv : v ≤ k
    · simp [FindPos2, hv] at h; subst h; simp
    · simp only [FindPos2, hv, if_false, Option.map_eq_some'] at h
      obtain ⟨q, hq, rfl⟩ := h
      intro x hx
      simp only [List.take_succ_cons, List.mem_cons] at hx
      rcases hx with hx | hx
      · rw [hx]; omega
      · exact ih q hq x hx

/-- When `FindPos2` finds no position, every key is below the value. -/
theorem findPos2_none_lt (v : Int) : ∀ keys : List Int, FindPos2 keys v = Option.none →
    ∀ k ∈ keys, k < v := by
  intro keys
  induction keys with
  | nil => intro _ k hk; simp at hk
  | cons x xs ih =>
    intro h
    by_cases hv : v ≤ x
    · simp [FindPos2, hv] at h
    · simp only [FindPos2, hv, if_false, Option.map_eq_none'] at h
      intro k hk
      rcases List.mem_cons.1 hk with hk | hk
      · rw [hk]; omega
      · exact ih h k hk

/-- The renumbering by a sequence of calls, in two parts. -/
theorem renumbered_append : ∀ (a b : List Op) (r : Int),
    renumbered r (a ++ b) = renumbered (renumbered r a) b := by
  intro a
  induction a with
  | nil => intro b r; rfl
  | cons op a ih =>
    intro b r
    cases op with
    | insert n w => simpa [renumbered] using ih b r
    | delete n w => simpa [renumbered] using ih b _

/-- `LeafInsert` places a new entry in a leaf of stamped entries: the leaf then
stores the old entries and the new one, in the order `newerFirst` when the new
entry has the latest stamp. -/
theorem placeAt_stamped (e : Stamped) : ∀ zs : List Stamped,
    ∃ zs1 : List Stamped,
      placeAt (stampedKeys zs) (FindPos2 (stampedKeys zs) e.key) e.key = stampedKeys zs1 ∧
      placeAt (stampedRows zs) (FindPos2 (stampedKeys zs) e.key) e.row = stampedRows zs1 ∧
      (∀ x, x ∈ zs1 ↔ x = e ∨ x ∈ zs) ∧
      (zs.Pairwise newerFirst → (∀ x ∈ zs, x.stamp < e.stamp) → zs1.Pairwise newerFirst) := by
  intro zs
  induction zs with
  | nil =>
    refine ⟨[e], rfl, rfl, by simp, ?_⟩
    intro _ _
    simp
  | cons z zs ih =>
    obtain ⟨zs1, h1, h2, h3, h4⟩ := ih
    by_cases hv : e.key ≤ z.key
    · refine ⟨e :: z :: zs, ?_, ?_, by simp, ?_⟩
      · simp [stampedKeys, FindPos2, hv, placeAt, Insert]
      · simp [stampedKeys, stampedRows, FindPos2, hv, placeAt, Insert]
      · intro hp hs
        refine List.Pairwise.cons ?_ hp
        intro x hx
        have hzx : z.key ≤ x.key := by
          rcases List.mem_cons.1 hx with hx | hx
          · rw [hx]
          · exact ((List.pairwise_cons.1 hp).1 x hx).1
        exact ⟨le_trans hv hzx, fun _ => hs x hx⟩
    · refine ⟨z :: zs1, ?_, ?_, ?_, ?_⟩
      · simp only [stampedKeys, List.map_cons, FindPos2, hv, if_false] at h1 ⊢
        cases hp : FindPos2 (List.map (fun e => e.key) zs) e.key with
        | none =>
          rw [hp] at h1
          simp only [placeAt, Add, Option.map_none'] at h1 ⊢
          rw [← h1]; rfl
        | some p =>
          rw [hp] at h1
          simp only [placeAt, Insert, Option.map_some'] at h1 ⊢
          rw [← h1]; rfl
      · simp only [stampedKeys, stampedRows, List.map_cons, FindPos2, hv, if_false] at h2 ⊢
        cases hp : FindPos2 (List.map (fun e => e.key) zs) e.key with
        | none =>
          rw [hp] at h2
          simp only [placeAt, Add, Option.map_none'] at h2 ⊢
          rw [← h2]; rfl
        | some p =>
          rw [hp] at h2
          simp only [placeAt, Insert, Option.map_some'] at h2 ⊢
          rw [← h2]; rfl
      · intro x
        simp only [List.mem_cons, h3]
        tauto
      · intro hp hs
        have hp1 := List.pairwise_cons.1 hp
        refine List.Pairwise.cons ?_
          (h4 hp1.2 (fun x hx => hs x (List.mem_cons_of_mem _ hx)))
        intro x hx
        rcases (h3 x).1 hx with hx | hx
        · subst hx
          exact ⟨by omega, fun h => absurd h (by omega)⟩
        · exact hp1.1 x hx

/-- When `NodeAdd` returns, the node is an internal node. -/
theorem nodeAdd_isNode (n x : Node) (b : Bool) (n1 : Node) (h : NodeAdd n x = .ok (b, n1)) :
    IsNode n1 = true := by
  cases n with
  | leaf ks rs => simp [NodeAdd] at h
  | node ks cs =>
    simp only [NodeAdd] at h
    split at h
    · simp at h
    · split at h
      · simp only [Except.ok.injEq, Prod.mk.injEq] at h
        rw [← h.2]; rfl
      · simp only [Except.ok.injEq, Prod.mk.injEq] at h
        rw [← h.2]; rfl

/-- `Insert64` on a leaf root without room returns an internal node. -/
theorem insert64_full_leaf_isNode (keys refs : List Int) (ndx : Nat) (v : Int) (b : Bool)
    (t1 : Node) (hfull : ¬ keys.length < MAX_LIST_SIZE)
    (h : Insert64 (.leaf keys refs) ndx v = .ok (b, t1)) : IsNode t1 = true := by
  have key : ∀ (x y : Node), (match NodeAdd emptyNode x with
      | .error e => (.error e : Except Fault (Bool × Node))
      | .ok (_, n1) =>
        match NodeAdd n1 y with
        | .error e => .error e
        | .ok (_, n2) => .ok (true, n2)) = .ok (b, t1) → IsNode t1 = true := by
    intro x y hxy
    cases e1 : NodeAdd emptyNode x with
    | error e => simp [e1] at hxy
    | ok p1 =>
      obtain ⟨b1, n1⟩ := p1
      simp only [e1] at hxy
      cases e2 : NodeAdd n1 y with
      | error e => simp [e2] at hxy
      | ok p2 =>
        obtain ⟨b2, n2⟩ := p2
        simp only [e2, Except.ok.injEq, Prod.mk.injEq] at hxy
        exact hxy.2 ▸ nodeAdd_isNode n1 y b2 n2 e2
  have hle : LeafInsert empty ndx v = .ok (true, .leaf [v] [toInt64 ndx]) := rfl
  simp only [Insert64, DoInsert, hle, Size, keysOf, hfull, if_false] at h
  split at h
  · simp at h
  · rename_i self nc hd
    split at hd
    · simp only [Except.ok.injEq, Prod.mk.injEq] at hd
      obtain ⟨rfl, rfl⟩ := hd
      exact key (.leaf [v] [toInt64 ndx]) (.leaf keys refs) h
    · split at hd
      · simp only [Except.ok.injEq, Prod.mk.injEq] at hd
        obtain ⟨rfl, rfl⟩ := hd
        exact key (.leaf keys refs) (.leaf [v] [toInt64 ndx]) h
      · simp only [Except.ok.injEq, Prod.mk.injEq] at hd
        obtain ⟨rfl, rfl⟩ := hd
        exact key (ResizeSlots ndx keys refs) (.leaf [v] [toInt64 ndx]) h

/-- When `DoDelete` returns on a leaf, the leaf is as it was or has lost the
entry at one position. -/
theorem doDelete_leaf_shape (keys refs : List Int) (ndx : Nat) (v : Int) (b : Bool) (t1 : Node)
    (h : DoDelete (.leaf keys refs) ndx v = .ok (b, t1)) :
    t1 = .leaf keys refs ∨ ∃ p, t1 = .leaf (keys.eraseIdx p) (refs.eraseIdx p) := by
  simp only [DoDelete] at h
  cases hp : FindPos2 keys v with
  | none => simp [hp] at h
  | some pos =>
    simp only [hp] at h
    cases hs : leafScan ndx (refs.drop pos) pos with
    | error e => simp [hs] at h
    | ok o =>
      simp only [hs] at h
      cases o with
      | none =>
        simp only [Except.ok.injEq, Prod.mk.injEq] at h
        exact Or.inl h.2.symm
      | some p =>
        simp only at h
        split at h
        · simp only [Except.ok.injEq, Prod.mk.injEq] at h
          exact Or.inr ⟨p, h.2.symm⟩
        · simp at h

/-- When `Delete` returns on a leaf root, the root is the leaf as it was or
without the entry at one position, with the row positions renumbered. -/
theorem delete_leaf_shape (keys refs : List Int) (ndx : Nat) (v : Int) (t1 : Node)
    (h : Delete (.leaf keys refs) ndx v = .ok t1) :
    t1 = .leaf keys (IncrementIf refs (toInt64 ndx) (-1)) ∨
      ∃ p, t1 = .leaf (keys.eraseIdx p) (IncrementIf (refs.eraseIdx p) (toInt64 ndx) (-1)) := by
  unfold Delete at h
  cases hd : DoDelete (.leaf keys refs) ndx v with
  | error e => simp [hd] at h
  | ok res =>
    obtain ⟨b, self⟩ := res
    simp only [hd] at h
    rcases doDelete_leaf_shape keys refs ndx v b self hd with e | ⟨p, e⟩
    · subst e
      simp only [collapse, UpdateRefs] at h
      simp at h
      exact Or.inl h.symm
    · subst e
      simp only [collapse, UpdateRefs] at h
      simp at h
      exact Or.inr ⟨p, h.symm⟩

/-- Erasing a position of a mapped list. -/
theorem eraseIdx_map_eq {α β : Type} (f : α → β) : ∀ (xs : List α) (p : Nat),
    (xs.map f).eraseIdx p = (xs.eraseIdx p).map f := by
  intro xs
  induction xs with
  | nil => intro p; rfl
  | cons x xs ih =>
    intro p
    cases p with
    | zero => rfl
    | succ p => simp [List.eraseIdx, ih p]

/-- A position that holds an element is below the length. -/
theorem lt_of_getElem?_eq_some {α : Type} (l : List α) (i : Nat) (a : α)
    (h : l[i]? = some a) : i < l.length := by
  rcases Nat.lt_or_ge i l.length with h1 | h1
  · exact h1
  · rw [List.getElem?_eq_none h1] at h
    cases h

/-- The stamps of the entries, entry by entry. -/
theorem mem_stamps (zs : List Stamped) (i : Nat) : i ∈ stamps zs ↔ ∃ e ∈ zs, e.stamp = i := by
  simp [stamps]

/-- No entry is a record of no call. -/
theorem recorded_nil : Recorded [] [] := by
  refine ⟨by simp, List.Pairwise.nil, ?_⟩
  intro i r v h
  simp at h

/-- An `Insert64` call on a leaf root with room keeps the record: the leaf then
stores the new entry too, stamped with the call. -/
theorem recorded_insert (pre : List Op) (zs : List Stamped) (ndx : Nat) (v : Int)
    (h : Recorded pre zs) :
    ∃ zs1 : List Stamped,
      placeAt (stampedKeys zs) (FindPos2 (stampedKeys zs) v) v = stampedKeys zs1 ∧
      placeAt (stampedRows zs) (FindPos2 (stampedKeys zs) v) (toInt64 ndx) = stampedRows zs1 ∧
      Recorded (pre ++ [.insert ndx v]) zs1 := by
  obtain ⟨h1, h2, h3⟩ := h
  have hlt : ∀ x ∈ zs, x.stamp < pre.length := by
    intro x hx
    obtain ⟨r, hr, _⟩ := h1 x hx
    exact lt_of_getElem?_eq_some _ _ _ hr
  obtain ⟨zs1, e1, e2, hm, hp⟩ := placeAt_stamped ⟨v, toInt64 ndx, pre.length⟩ zs
  refine ⟨zs1, e1, e2, ?_, hp h2 hlt, ?_⟩
  · intro e he
    rcases (hm e).1 he with he | he
    · subst he
      refine ⟨ndx, ?_, ?_⟩
      · show (pre ++ [Op.insert ndx v])[pre.length]? = some (Op.insert ndx v)
        rw [List.getElem?_append_right (le_refl _)]
        simp
      · show toInt64 ndx = renumbered (toInt64 ndx) ((pre ++ [Op.insert ndx v]).drop (pre.length + 1))
        rw [List.drop_of_length_le (by simp)]
        rfl
    · obtain ⟨r, hr, hrow⟩ := h1 e he
      have hl := hlt e he
      refine ⟨r, ?_, ?_⟩
      · rw [List.getElem?_append_left hl]; exact hr
      · rw [List.drop_append_of_le_length (by omega), renumbered_append, ← hrow]
        rfl
  · intro i r w hi hnd
    rcases Nat.lt_trichotomy i pre.length with hlt1 | heq | hgt
    · rw [List.getElem?_append_left hlt1] at hi
      have hmem := h3 i r w hi (by
        intro j n u hij hj
        have hjl := lt_of_getElem?_eq_some _ _ _ hj
        exact hnd j n u hij (by rw [List.getElem?_append_left hjl]; exact hj))
      obtain ⟨e, he, hs⟩ := (mem_stamps zs i).1 hmem
      exact (mem_stamps zs1 i).2 ⟨e, (hm e).2 (Or.inr he), hs⟩
    · exact (mem_stamps zs1 i).2 ⟨⟨v, toInt64 ndx, pre.length⟩, (hm _).2 (Or.inl rfl), heq.symm⟩
    · have hlen := lt_of_getElem?_eq_some _ _ _ hi
      simp only [List.length_append, List.length_cons, List.length_nil] at hlen
      omega

/-- A `Delete` call on a leaf root keeps the record: the leaf then stores some
of the entries, renumbered by the call. -/
theorem recorded_delete (pre : List Op) (zs zs0 : List Stamped) (ndx : Nat) (w : Int)
    (h : Recorded pre zs) (hsub : zs0.Sublist zs) :
    Recorded (pre ++ [.delete ndx w])
      (zs0.map fun e => ⟨e.key, shiftRow ndx (-1) e.row, e.stamp⟩) := by
  obtain ⟨h1, h2, h3⟩ := h
  refine ⟨?_, ?_, ?_⟩
  · intro e he
    obtain ⟨e0, he0, rfl⟩ := List.mem_map.1 he
    obtain ⟨r, hr, hrow⟩ := h1 e0 (hsub.subset he0)
    have hl := lt_of_getElem?_eq_some _ _ _ hr
    refine ⟨r, ?_, ?_⟩
    · show (pre ++ [Op.delete ndx w])[e0.stamp]? = some (Op.insert r e0.key)
      rw [List.getElem?_append_left hl]; exact hr
    · show shiftRow ndx (-1) e0.row
        = renumbered (toInt64 r) ((pre ++ [Op.delete ndx w]).drop (e0.stamp + 1))
      rw [List.drop_append_of_le_length (by omega), renumbered_append, ← hrow]
      rfl
  · rw [List.pairwise_map]
    exact (h2.sublist hsub).imp (fun hab => hab)
  · intro i r v hi hnd
    rcases Nat.lt_or_ge i pre.length with hlt | hge
    · exact absurd (by rw [List.getElem?_append_right (le_refl _)]; simp)
        (hnd pre.length ndx w hlt)
    · rcases Nat.eq_or_lt_of_le hge with heq | hgt
      · rw [← heq, List.getElem?_append_right (le_refl _)] at hi
        simp at hi
      · have hlen := lt_of_getElem?_eq_some _ _ _ hi
        simp only [List.length_append, List.length_cons, List.length_nil] at hlen
        omega

/-- No call sequence on an internal root is a run on a leaf root. -/
theorem leafRun_isNode (t : Node) (ops : List Op) (h : IsNode t = true) :
    leafRun t ops = false := by
  cases ops <;> simp [leafRun, h]

/-- The arrays of a leaf after the renumbering of its entries. -/
theorem stamped_shift (zs : List Stamped) (ndx : Nat) :
    stampedKeys (zs.map fun e => ⟨e.key, shiftRow ndx (-1) e.row, e.stamp⟩) = stampedKeys zs ∧
      stampedRows (zs.map fun e => ⟨e.key, shiftRow ndx (-1) e.row, e.stamp⟩)
        = IncrementIf (stampedRows zs) (toInt64 ndx) (-1) := by
  constructor
  · simp [stampedKeys, List.map_map, Function.comp]
  · simp [stampedRows, IncrementIf, List.map_map, Function.comp, shiftRow]

/-- A run of calls on a leaf root returns a leaf root whose entries are a record
of the calls. -/
theorem leafRun_recorded : ∀ (post pre : List Op) (zs : List Stamped), Recorded pre zs →
    leafRun (.leaf (stampedKeys zs) (stampedRows zs)) post = true →
    ∃ zs1 : List Stamped,
      run (.leaf (stampedKeys zs) (stampedRows zs)) post
        = .ok (.leaf (stampedKeys zs1) (stampedRows zs1)) ∧
      Recorded (pre ++ post) zs1 := by
  intro post
  induction post with
  | nil =>
    intro pre zs h _
    exact ⟨zs, rfl, by simpa using h⟩
  | cons op post ih =>
    intro pre zs h hl
    simp only [leafRun, IsNode, Bool.not_false, Bool.true_and] at hl
    have hassoc : pre ++ op :: post = (pre ++ [op]) ++ post := by simp
    rw [hassoc]
    cases op with
    | insert ndx v =>
      by_cases hroom : (stampedKeys zs).length < MAX_LIST_SIZE
      · obtain ⟨zs1, e1, e2, hrec⟩ := recorded_insert pre zs ndx v h
        have hins := insert64_leaf (stampedKeys zs) (stampedRows zs) ndx v hroom
        rw [e1, e2] at hins
        simp only [applyOp, hins] at hl
        obtain ⟨zs2, hrun, hrec2⟩ := ih (pre ++ [.insert ndx v]) zs1 hrec hl
        refine ⟨zs2, ?_, hrec2⟩
        simp only [run, applyOp, hins]
        exact hrun
      · cases hi : Insert64 (.leaf (stampedKeys zs) (stampedRows zs)) ndx v with
        | error e => simp [applyOp, hi] at hl
        | ok res =>
          obtain ⟨b, t1⟩ := res
          simp only [applyOp, hi] at hl
          rw [leafRun_isNode t1 post
            (insert64_full_leaf_isNode _ _ ndx v b t1 hroom hi)] at hl
          cases hl
    | delete ndx w =>
      cases hd : Delete (.leaf (stampedKeys zs) (stampedRows zs)) ndx w with
      | error e => simp [applyOp, hd] at hl
      | ok t1 =>
        simp only [applyOp, hd] at hl
        have hshape : ∃ zs0 : List Stamped, zs0.Sublist zs ∧
            t1 = .leaf (stampedKeys (zs0.map fun e => ⟨e.key, shiftRow ndx (-1) e.row, e.stamp⟩))
              (stampedRows (zs0.map fun e => ⟨e.key, shiftRow ndx (-1) e.row, e.stamp⟩)) := by
          rcases delete_leaf_shape _ _ ndx w t1 hd with e | ⟨p, e⟩
          · refine ⟨zs, List.Sublist.refl _, ?_⟩
            rw [(stamped_shift zs ndx).1, (stamped_shift zs ndx).2]
            exact e
          · refine ⟨zs.eraseIdx p, List.eraseIdx_sublist _ _, ?_⟩
            rw [(stamped_shift _ ndx).1, (stamped_shift _ ndx).2, e]
            simp only [stampedKeys, stampedRows, eraseIdx_map_eq]
        obtain ⟨zs0, hsub, rfl⟩ := hshape
        obtain ⟨zs2, hrun, hrec2⟩ := ih (pre ++ [.delete ndx w]) _
          (recorded_delete pre zs zs0 ndx w h hsub) hl
        refine ⟨zs2, ?_, hrec2⟩
        simp only [run, applyOp, hd]
        exact hrun

/-- The entries of a record have different stamps. -/
theorem recorded_nodup (ops : List Op) (zs : List Stamped) (h : Recorded ops zs) :
    (stamps zs).Nodup := by
  obtain ⟨h1, h2, _⟩ := h
  unfold stamps List.Nodup
  rw [List.pairwise_map]
  refine h2.imp_of_mem ?_
  intro a b ha hb hab heq
  obtain ⟨ra, hra, _⟩ := h1 a ha
  obtain ⟨rb, hrb, _⟩ := h1 b hb
  rw [heq, hrb] at hra
  simp only [Option.some.injEq, Op.insert.injEq] at hra
  have := hab.2 hra.2.symm
  omega

/-- In a leaf that stores its entries in the order `newerFirst`, the first entry
whose key is not below the key of `e` is `e`, when no stored entry with that key
has a later stamp. -/
theorem find?_newest (e : Stamped) : ∀ zs : List Stamped, zs.Pairwise newerFirst → e ∈ zs →
    (∀ x ∈ zs, x.key = e.key → x.stamp ≤ e.stamp) →
    ((stampedKeys zs).zip (stampedRows zs)).find? (fun x => decide (e.key ≤ x.1))
      = some (e.key, e.row) := by
  intro zs
  induction zs with
  | nil => intro _ he; simp at he
  | cons z zs ih =>
    intro hp he hmax
    have hp1 := List.pairwise_cons.1 hp
    simp only [stampedKeys, stampedRows, List.map_cons, List.zip_cons_cons, List.find?_cons]
    by_cases hz : e.key ≤ z.key
    · simp only [hz, decide_True]
      rcases List.mem_cons.1 he with he1 | he1
      · rw [he1]
      · have hn := hp1.1 e he1
        have hk : z.key = e.key := le_antisymm hn.1 hz
        have h1 := hn.2 hk
        have h2 := hmax z (List.mem_cons_self _ _) hk
        omega
    · simp only [hz, decide_False]
      rcases List.mem_cons.1 he with he1 | he1
      · rw [he1] at hz; exact absurd (le_refl _) hz
      · exact ih hp1.2 he1 (fun x hx => hmax x (List.mem_cons_of_mem _ hx))

/-- Claim C18, amended: in an index whose root has been a leaf since it was
empty (every call of `ops` returns, and the root is a leaf after each),
`LeafInsert` has placed every new entry before the stored entries with an equal
key, and `Find(v)` returns the row position passed to the most recent `Insert64`
of the value `v` among the entries with key `v` still stored, as renumbered by
the `Delete` calls made after that `Insert64`.  The stored entries are the list
`zs`: each is the entry of the `Insert64` call at its stamp, with the key passed
to that call and the row position passed to it, renumbered by the later calls;
no two have the same stamp; the entry of every `Insert64` call that no `Delete`
call follows is stored; and for every stored entry `e` with the latest stamp
among the stored entries with its key, `Find(e.key)` returns the row of `e`.
And `LeafInsert` on a leaf with keys and refs of equal length puts the new entry
at a position `p` such that every key before `p` is below the value, so before
every entry with an equal key.  After `Insert64(0,10); Insert64(1,10)` on an
empty index `Find(10)` returns 1. -/
theorem C18_latest_stored_insert_is_found (ops : List Op) (h : leafRun empty ops = true) :
    (∃ zs : List Stamped,
      run empty ops = .ok (.leaf (stampedKeys zs) (stampedRows zs)) ∧
      (∀ e ∈ zs, ∃ r : Nat, ops[e.stamp]? = some (.insert r e.key) ∧
        e.row = renumbered (toInt64 r) (ops.drop (e.stamp + 1))) ∧
      (stamps zs).Nodup ∧
      (∀ (i r : Nat) (v : Int), ops[i]? = some (.insert r v) →
        (∀ (j n : Nat) (w : Int), i < j → ops[j]? ≠ some (.delete n w)) → i ∈ stamps zs) ∧
      ∀ e ∈ zs, (∀ x ∈ zs, x.key = e.key → x.stamp ≤ e.stamp) →
        Find (.leaf (stampedKeys zs) (stampedRows zs)) e.key = .ok (toSizeT e.row)) ∧
      (∀ (keys refs : List Int) (ref : Nat) (value : Int), keys.length = refs.length →
        ∃ (keys1 refs1 : List Int) (p : Nat),
          LeafInsert (.leaf keys refs) ref value = .ok (true, .leaf keys1 refs1) ∧
          keys1[p]? = some value ∧ refs1[p]? = some (toInt64 ref) ∧
          ∀ k ∈ keys1.take p, k < value) ∧
      ∃ t, run empty [.insert 0 10, .insert 1 10] = .ok t ∧ Find t 10 = .ok 1 := by
  refine ⟨?_, ?_, ⟨.leaf [10, 10] [1, 0], rfl, rfl⟩⟩
  · obtain ⟨zs, hrun, hrec⟩ := leafRun_recorded ops [] [] recorded_nil h
    rw [List.nil_append] at hrec
    refine ⟨zs, hrun, hrec.1, recorded_nodup ops zs hrec, hrec.2.2, ?_⟩
    intro e he hmax
    rw [find_leaf e.key _ _ (by simp [stampedKeys, stampedRows]),
      find?_newest e zs hrec.2.1 he hmax]
    simp
  · intro keys refs ref value hl
    have hpl : (FindPos2 keys value).getD keys.length ≤ keys.length := by
      cases h : FindPos2 keys value with
      | none => simp
      | some p => simpa using le_of_lt (findPos2_lt value keys p h)
    refine ⟨placeAt keys (FindPos2 keys value) value,
      placeAt refs (FindPos2 keys value) (toInt64 ref),
      (FindPos2 keys value).getD keys.length, leafInsert_leaf keys refs ref value, ?_, ?_, ?_⟩
    · rw [placeAt_eq_insert keys value keys value rfl]; exact insert_getElem? _ _ _ hpl
    · rw [placeAt_eq_insert keys value refs _ hl]; exact insert_getElem? _ _ _ (hl ▸ hpl)
    · rw [placeAt_eq_insert keys value keys value rfl]
      intro k hk
      have hk1 : k ∈ keys.take ((FindPos2 keys value).getD keys.length) := by
        simpa [Insert, List.take_append_eq_append_take, List.take_take, hpl] using hk
      cases h : FindPos2 keys value with
      | some p =>
        rw [h] at hk1
        exact findPos2_take_lt value keys p h k (by simpa using hk1)
      | none =>
        rw [h] at hk1
        exact findPos2_none_lt value keys h k (by simpa using hk1)

/-- The amended claim C18 at `Insert64(0,10); Insert64(1,10); Insert64(2,5);
Delete(2,5)`: the root is a leaf throughout, the calls leave the entries
`(10, 1)` and `(10, 0)`, and `Find(10)` returns 1, the row position passed to the
later `Insert64` of 10. -/
theorem C18_latest_stored_insert_is_found_witness :
    leafRun empty [.insert 0 10, .insert 1 10, .insert 2 5, .delete 2 5] = true ∧
      run empty [.insert 0 10, .insert 1 10, .insert 2 5, .delete 2 5]
        = .ok (.leaf [10, 10] [1, 0]) ∧
      Find (.leaf [10, 10] [1, 0]) 10 = .ok 1 ∧
      ((∃ zs : List Stamped,
        run empty [.insert 0 10, .insert 1 10, .insert 2 5, .delete 2 5]
          = .ok (.leaf (stampedKeys zs) (stampedRows zs)) ∧
        (∀ e ∈ zs, ∃ r : Nat,
          [Op.insert 0 10, .insert 1 10, .insert 2 5, .delete 2 5][e.stamp]?
            = some (.insert r e.key) ∧
          e.row = renumbered (toInt64 r)
            ([Op.insert 0 10, .insert 1 10, .insert 2 5, .delete 2 5].drop (e.stamp + 1))) ∧
        (stamps zs).Nodup ∧
        (∀ (i r : Nat) (v : Int),
          [Op.insert 0 10, .insert 1 10, .insert 2 5, .delete 2 5][i]? = some (.insert r v) →
          (∀ (j n : Nat) (w : Int), i < j →
            [Op.insert 0 10, .insert 1 10, .insert 2 5, .delete 2 5][j]?
              ≠ some (.delete n w)) → i ∈ stamps zs) ∧
        ∀ e ∈ zs, (∀ x ∈ zs, x.key = e.key → x.stamp ≤ e.stamp) →
          Find (.leaf (stampedKeys zs) (stampedRows zs)) e.key = .ok (toSizeT e.row)) ∧
        (∀ (keys refs : List Int) (ref : Nat) (value : Int), keys.length = refs.length →
          ∃ (keys1 refs1 : List Int) (p : Nat),
            LeafInsert (.leaf keys refs) ref value = .ok (true, .leaf keys1 refs1) ∧
            keys1[p]? = some value ∧ refs1[p]? = some (toInt64 ref) ∧
            ∀ k ∈ keys1.take p, k < value) ∧
        ∃ t, run empty [.insert 0 10, .insert 1 10] = .ok t ∧ Find t 10 = .ok 1) :=
  ⟨rfl, rfl, rfl,
    C18_latest_stored_insert_is_found [.insert 0 10, .insert 1 10, .insert 2 5, .delete 2 5] rfl⟩

/-- Claim C18 as stated does not hold after a `Delete`: after `Insert64(0,5);
Insert64(1,10); Delete(0,5)` the entry of the only `Insert64` of 10 is still
stored, and `Find(10)` does not return the row position 1 passed to it (it
returns the renumbered row 0). -/
theorem C18_row_passed_counterexample :
    ¬ ∃ t, run empty [.insert 0 5, .insert 1 10, .delete 0 5] = .ok t ∧ Find t 10 = .ok 1 := by
  rintro ⟨t, ht, h⟩
  have e : run empty [.insert 0 5, .insert 1 10, .delete 0 5] = .ok (.leaf [10] [0]) := rfl
  rw [e] at ht
  injection ht with ht
  subst ht
  revert h
  simp [Find, IsNode, FindLoop, FindPos2, Get, toSizeT]

end Index
